import Mathlib

/-!
Verification of the baq backup engine (Python) against its natural-language
specification.  The Python modules are shallowly embedded: byte strings are
`List Nat`, external cryptographic primitives (SHA-1, SHA3-512, the zstd
codec, the AES-CTR keystream and the CSPRNG nonce supply) are parameters of
the embedding, and the thread pipeline of `backup.py` is modelled by its
sequential semantics (the store thread consumes a FIFO queue filled by the
single reader thread, so manifest records are produced in read order).
-/

namespace Baq

/-- Bytes of an object or file, one `Nat` per byte. -/
abbrev Bytes := List Nat

/-- Model of `f.seek(off); f.read(sz)` on a file with the given contents, and
of a ranged object read `bytes=off..off+sz-1`.  Reading past the end of the
data returns the available suffix (possibly empty), as in Python. -/
def sliceL (content : Bytes) (off sz : Nat) : Bytes :=
  (content.drop off).take sz

/-- External primitives of `baq`: content hashes, the zstd codec and the
AES-256-CTR keystream (byte `i` of the keystream generated from a 32-byte key
and a 16-byte nonce).  `nonces` is the CSPRNG supplying the result of each
successive `token_bytes(16)` call. -/
structure Crypto where
  sha3 : Bytes → Bytes
  sha1 : Bytes → Bytes
  compress : Bytes → Bytes
  decompress : Bytes → Bytes
  ks : Bytes → Bytes → Nat → Nat
  nonces : Nat → Bytes

/-- XOR of a byte stream with the keystream `f`, starting at keystream
position `i`; this is the CTR-mode action of `encryptor.update`. -/
def ctrXor (f : Nat → Nat) : Nat → Bytes → Bytes
  | _, [] => []
  | i, b :: rest => (b ^^^ f i) :: ctrXor f (i + 1) rest

/-- Model of `encrypt_aes(data, key)` from `baq/helpers/encryption.py`: a
16-byte nonce freshly drawn from the CSPRNG is prepended to the CTR
encryption of `data` under `key` with that nonce. -/
def encrypt_aes (C : Crypto) (key nonce data : Bytes) : Bytes :=
  nonce ++ ctrXor (C.ks key nonce) 0 data

/-- Model of `decrypt_aes(encrypted_data, key)`: the first 16 bytes are taken
as the nonce and the rest is CTR-decrypted. -/
def decrypt_aes (C : Crypto) (key encrypted_data : Bytes) : Bytes :=
  ctrXor (C.ks key (encrypted_data.take 16)) 0 (encrypted_data.drop 16)

theorem ctrXor_length (f : Nat → Nat) (i : Nat) (l : Bytes) :
    (ctrXor f i l).length = l.length := by
  induction l generalizing i with
  | nil => rfl
  | cons b rest ih => simp [ctrXor, ih]

theorem ctrXor_ctrXor (f : Nat → Nat) (i : Nat) (l : Bytes) :
    ctrXor f i (ctrXor f i l) = l := by
  induction l generalizing i with
  | nil => rfl
  | cons b rest ih => simp [ctrXor, ih, Nat.xor_cancel_right]

/-- C9: for every plaintext and key, `encrypt_aes` returns a blob of length
`16 + |plain|` consisting of the 16-byte nonce followed by the ciphertext,
and `decrypt_aes` inverts it under the same key. -/
theorem encrypt_aes_roundtrip (C : Crypto) (key nonce plain : Bytes)
    (hn : nonce.length = 16) :
    (encrypt_aes C key nonce plain).length = 16 + plain.length ∧
    (encrypt_aes C key nonce plain).take 16 = nonce ∧
    decrypt_aes C key (encrypt_aes C key nonce plain) = plain := by
  refine ⟨?_, ?_, ?_⟩
  · simp [encrypt_aes, ctrXor_length, hn]
  · simp [encrypt_aes, List.take_append_eq_append_take, hn,
      List.take_of_length_le (le_of_eq hn)]
  · have htake : (encrypt_aes C key nonce plain).take 16 = nonce := by
      simp [encrypt_aes, List.take_append_eq_append_take, hn,
        List.take_of_length_le (le_of_eq hn)]
    have hdrop : (encrypt_aes C key nonce plain).drop 16 =
        ctrXor (C.ks key nonce) 0 plain := by
      simp [encrypt_aes, List.drop_append_eq_append_drop, hn]
    rw [decrypt_aes, htake, hdrop, ctrXor_ctrXor]

/-- Witness for C9 at a concrete keystream, key, nonce and plaintext. -/
theorem encrypt_aes_roundtrip_witness :
    (List.replicate 16 7 : Bytes).length = 16 ∧
    ((encrypt_aes ⟨id, id, id, id, fun _ _ i => i + 3, fun _ => []⟩
        [1, 2] (List.replicate 16 7) [10, 20, 30]).length = 16 + 3 ∧
      (encrypt_aes ⟨id, id, id, id, fun _ _ i => i + 3, fun _ => []⟩
        [1, 2] (List.replicate 16 7) [10, 20, 30]).take 16 = List.replicate 16 7 ∧
      decrypt_aes ⟨id, id, id, id, fun _ _ i => i + 3, fun _ => []⟩ [1, 2]
        (encrypt_aes ⟨id, id, id, id, fun _ _ i => i + 3, fun _ => []⟩
          [1, 2] (List.replicate 16 7) [10, 20, 30]) = [10, 20, 30]) :=
  ⟨by decide,
   encrypt_aes_roundtrip ⟨id, id, id, id, fun _ _ i => i + 3, fun _ => []⟩
     [1, 2] (List.replicate 16 7) [10, 20, 30] (by decide)⟩

/-! ## Data-file aggregator (`S3DataCollector` in `baq/backends/s3_backend.py`)

A data file is identified here by its number, the successive value of
`next(self.file_number)`; the Python object name is the fixed injective
format `baq.<backup_id>.data-<number zero-padded to 6 digits>` of that
number.  `S3DataCollectorFile` is represented by its byte counter: `tell()`
returns `self.offset` and `write(data)` adds `len(data)` to it (the part
buffering governs only the multipart upload, not the offsets handed out). -/

/-- State of an `S3DataCollector`: the `file_number` counter and, when a data
file is open, its number together with the bytes written to it so far. -/
structure CollState where
  nextNumber : Nat
  current : Option (Nat × Nat)
deriving Repr, DecidableEq

/-- Collector state at `__init__`: counter at 0, no data file open. -/
def collInit : CollState := ⟨0, none⟩

/-- Model of `S3DataCollector.store_block(data)` with data-file size cap
`cap` (`data_file_size`, 100 GiB in the source): open a data file if none is
open, remember `tell()`, `write(data)`, close the file when the pre-write
offset plus `len(data)` reaches `cap`, and return `(filename, offset)`. -/
def store_block (cap : Nat) (st : CollState) (data : Bytes) :
    (Nat × Nat) × CollState :=
  match st.current with
  | none =>
      let n := st.nextNumber
      let cur := if cap ≤ 0 + data.length then none else some (n, data.length)
      ((n, 0), ⟨n + 1, cur⟩)
  | some (n, w) =>
      let cur := if cap ≤ w + data.length then none else some (n, w + data.length)
      ((n, w), ⟨st.nextNumber, cur⟩)

/-- Run `store_block` over a list of blocks, returning the
`(file, offset, size)` triple of every call together with the final state. -/
def runColl (cap : Nat) (st : CollState) : List Bytes → List (Nat × Nat × Nat) × CollState
  | [] => ([], st)
  | d :: ds =>
      let r := store_block cap st d
      let rest := runColl cap r.2 ds
      ((r.1.1, r.1.2, d.length) :: rest.1, rest.2)

/-- The `(offset, size)` pairs that went to data file `fn`, in call order. -/
def perFile (fn : Nat) (outs : List (Nat × Nat × Nat)) : List (Nat × Nat) :=
  (outs.filter (fun o => o.1 = fn)).map (fun o => o.2)

/-- Sum of the sizes of a list of `(offset, size)` pairs. -/
def sumSizes (l : List (Nat × Nat)) : Nat := (l.map Prod.snd).sum

/-- Each `(offset, size)` record starts where the previous one ended,
beginning at `start`. -/
def contiguousFrom : Nat → List (Nat × Nat) → Bool
  | _, [] => true
  | start, (o, s) :: rest => o = start && contiguousFrom (start + s) rest

theorem contiguousFrom_append_single (l : List (Nat × Nat)) (start sz : Nat)
    (h : contiguousFrom start l = true) :
    contiguousFrom start (l ++ [(start + sumSizes l, sz)]) = true := by
  induction l generalizing start with
  | nil => simp [contiguousFrom, sumSizes]
  | cons p rest ih =>
      obtain ⟨o, s⟩ := p
      simp only [contiguousFrom, Bool.and_eq_true, decide_eq_true_eq] at h
      obtain ⟨rfl, hrest⟩ := h
      have h2 := ih (o + s) hrest
      simp only [List.cons_append, contiguousFrom, Bool.and_eq_true, decide_eq_true_eq]
      refine ⟨by trivial, ?_⟩
      have harith : o + sumSizes ((o, s) :: rest) = o + s + sumSizes rest := by
        simp [sumSizes]
        omega
      rw [harith]
      exact h2

/-- Invariant tying a collector state to the calls made so far. -/
def CollInv (st : CollState) (outs : List (Nat × Nat × Nat)) : Prop :=
  (∀ fn, contiguousFrom 0 (perFile fn outs) = true) ∧
  (∀ o ∈ outs, o.1 < st.nextNumber) ∧
  (∀ n w, st.current = some (n, w) →
    n + 1 = st.nextNumber ∧ w = sumSizes (perFile n outs))

theorem perFile_append (fn : Nat) (outs : List (Nat × Nat × Nat)) (x : Nat × Nat × Nat) :
    perFile fn (outs ++ [x]) =
      perFile fn outs ++ (if x.1 = fn then [x.2] else []) := by
  by_cases h : x.1 = fn <;> simp [perFile, List.filter_append, h]

theorem perFile_nil_of_fresh (fn : Nat) (outs : List (Nat × Nat × Nat))
    (h : ∀ o ∈ outs, o.1 < fn) : perFile fn outs = [] := by
  have : outs.filter (fun o => o.1 = fn) = [] := by
    apply List.filter_eq_nil_iff.mpr
    intro o ho
    have := h o ho
    simp only [decide_eq_true_eq]
    omega
  simp [perFile, this]

theorem store_block_none_eq (cap : Nat) (st : CollState) (d : Bytes)
    (hc : st.current = none) :
    store_block cap st d = ((st.nextNumber, 0),
      ⟨st.nextNumber + 1,
        if cap ≤ 0 + d.length then none else some (st.nextNumber, d.length)⟩) := by
  simp [store_block, hc]

theorem store_block_some_eq (cap : Nat) (st : CollState) (d : Bytes) (n w : Nat)
    (hc : st.current = some (n, w)) :
    store_block cap st d = ((n, w),
      ⟨st.nextNumber,
        if cap ≤ w + d.length then none else some (n, w + d.length)⟩) := by
  simp [store_block, hc]

theorem store_block_inv (cap : Nat) (st : CollState) (outs : List (Nat × Nat × Nat))
    (d : Bytes) (hinv : CollInv st outs) :
    CollInv (store_block cap st d).2
      (outs ++ [((store_block cap st d).1.1, (store_block cap st d).1.2, d.length)]) := by
  obtain ⟨hcont, hlt, hcur⟩ := hinv
  match hc : st.current with
  | none =>
      rw [store_block_none_eq cap st d hc]
      have hnil : perFile st.nextNumber outs = [] := perFile_nil_of_fresh _ _ hlt
      refine ⟨?_, ?_, ?_⟩
      · intro fn
        rw [perFile_append]
        by_cases hfn : st.nextNumber = fn
        · subst hfn
          have h2 := contiguousFrom_append_single (perFile st.nextNumber outs) 0 d.length
            (hcont _)
          simp only [hnil, sumSizes, List.map_nil, List.sum_nil, Nat.add_zero,
            List.nil_append] at h2 ⊢
          simpa using h2
        · simp only [hfn, if_false, List.append_nil]
          exact hcont fn
      · intro o ho
        rcases List.mem_append.mp ho with h | h
        · have := hlt o h
          simp only
          omega
        · simp only [List.mem_singleton] at h
          subst h
          simp only
          omega
      · intro n w hcw
        simp only at hcw
        split at hcw
        · exact absurd hcw (by simp)
        · simp only [Option.some.injEq, Prod.mk.injEq] at hcw
          obtain ⟨rfl, rfl⟩ := hcw
          refine ⟨rfl, ?_⟩
          rw [perFile_append]
          simp [hnil, sumSizes]
  | some (n0, w0) =>
      obtain ⟨hn1, hw⟩ := hcur n0 w0 hc
      rw [store_block_some_eq cap st d n0 w0 hc]
      refine ⟨?_, ?_, ?_⟩
      · intro fn
        rw [perFile_append]
        by_cases hfn : n0 = fn
        · subst hfn
          have h2 := contiguousFrom_append_single (perFile n0 outs) 0 d.length (hcont _)
          simp only [Nat.zero_add] at h2
          simp only [← hw] at h2
          simpa using h2
        · simp only [hfn, if_false, List.append_nil]
          exact hcont fn
      · intro o ho
        rcases List.mem_append.mp ho with h | h
        · have := hlt o h
          simp only
          omega
        · simp only [List.mem_singleton] at h
          subst h
          simp only
          omega
      · intro n w hcw
        simp only at hcw
        split at hcw
        · exact absurd hcw (by simp)
        · simp only [Option.some.injEq, Prod.mk.injEq] at hcw
          obtain ⟨rfl, rfl⟩ := hcw
          refine ⟨hn1, ?_⟩
          rw [perFile_append]
          simp [sumSizes, hw]

theorem runColl_inv (cap : Nat) (ds : List Bytes) (st : CollState)
    (outs : List (Nat × Nat × Nat)) (hinv : CollInv st outs) :
    CollInv (runColl cap st ds).2 (outs ++ (runColl cap st ds).1) := by
  induction ds generalizing st outs with
  | nil => simpa [runColl] using hinv
  | cons d ds ih =>
      have h1 := store_block_inv cap st outs d hinv
      have h2 := ih (store_block cap st d).2 _ h1
      simpa [runColl, List.append_assoc] using h2

/-- Calls of one run of the collector, from the initial state. -/
def collOuts (cap : Nat) (ds : List Bytes) : List (Nat × Nat × Nat) :=
  (runColl cap collInit ds).1

theorem collOuts_contiguous (cap : Nat) (ds : List Bytes) (fn : Nat) :
    contiguousFrom 0 (perFile fn (collOuts cap ds)) = true := by
  have h := runColl_inv cap ds collInit [] ⟨fun fn => by simp [perFile, contiguousFrom],
    fun o ho => absurd ho (List.not_mem_nil o), fun n w h => by simp [collInit] at h⟩
  simpa [collOuts] using h.1 fn

theorem contiguousFrom_get (l : List (Nat × Nat)) :
    ∀ (s : Nat), contiguousFrom s l = true →
    ∀ (k : Fin l.length), (l.get k).1 = s + sumSizes (l.take k.1) := by
  induction l with
  | nil => intro s _ k; exact absurd k.2 (by simp)
  | cons p rest ih =>
      obtain ⟨o, sz⟩ := p
      intro s hc k
      simp only [contiguousFrom, Bool.and_eq_true, decide_eq_true_eq] at hc
      obtain ⟨rfl, hrest⟩ := hc
      match k with
      | ⟨0, _⟩ => simp [sumSizes]
      | ⟨j + 1, hj⟩ =>
          have hj2 : j < rest.length := by simpa using hj
          have := ih (o + sz) hrest ⟨j, hj2⟩
          simp only [List.get_cons_succ] at *
          simp only [List.take_succ_cons, sumSizes, List.map_cons, List.sum_cons]
          simp only [sumSizes] at this
          omega

theorem sumSizes_take_mono (l : List (Nat × Nat)) (m n : Nat) (h : m ≤ n) :
    sumSizes (l.take m) ≤ sumSizes (l.take n) := by
  have : l.take n = l.take m ++ (l.drop m).take (n - m) := by
    rw [← List.take_add]
    congr 1
    omega
  rw [this]
  simp [sumSizes]

theorem sumSizes_take_succ (l : List (Nat × Nat)) (k : Fin l.length) :
    sumSizes (l.take (k.1 + 1)) = sumSizes (l.take k.1) + (l.get k).2 := by
  rw [List.take_succ]
  have : l.get? k.1 = some (l.get k) := List.get?_eq_get k.2
  simp [this, sumSizes]

theorem runColl_sizes (cap : Nat) (st : CollState) (ds : List Bytes) :
    ∀ o ∈ (runColl cap st ds).1, ∃ d ∈ ds, o.2.2 = d.length := by
  induction ds generalizing st with
  | nil => simp [runColl]
  | cons d ds ih =>
      intro o ho
      simp only [runColl, List.mem_cons] at ho
      rcases ho with rfl | ho
      · exact ⟨d, by simp, rfl⟩
      · obtain ⟨d2, hd2, he⟩ := ih (store_block cap st d).2 o ho
        exact ⟨d2, by simp [hd2], he⟩

/-- C4: each `store_block` call returns an offset equal to the number of
bytes written to its data file before the call (offsets in one data file are
the partial sums of the earlier block sizes in that file); when the stored
blocks are non-empty, blocks of the same data file get strictly increasing
offsets and occupy pairwise disjoint, contiguous ranges. -/
theorem store_block_offset_spec (cap : Nat) (ds : List Bytes) (fn : Nat)
    (hpos : ∀ d ∈ ds, d ≠ []) :
    (∀ k : Fin (perFile fn (collOuts cap ds)).length,
      ((perFile fn (collOuts cap ds)).get k).1 =
        sumSizes ((perFile fn (collOuts cap ds)).take k.1)) ∧
    (∀ i j : Fin (perFile fn (collOuts cap ds)).length, i.1 < j.1 →
      ((perFile fn (collOuts cap ds)).get i).1 < ((perFile fn (collOuts cap ds)).get j).1 ∧
      ((perFile fn (collOuts cap ds)).get i).1 + ((perFile fn (collOuts cap ds)).get i).2 ≤
        ((perFile fn (collOuts cap ds)).get j).1) := by
  have hcont := collOuts_contiguous cap ds fn
  have hget := contiguousFrom_get (perFile fn (collOuts cap ds)) 0 hcont
  have hszpos : ∀ p ∈ perFile fn (collOuts cap ds), 0 < p.2 := by
    intro p hp
    simp only [perFile, List.mem_map, List.mem_filter] at hp
    obtain ⟨o, ⟨ho, _⟩, rfl⟩ := hp
    obtain ⟨d, hd, he⟩ := runColl_sizes cap collInit ds o ho
    have := hpos d hd
    have : 0 < d.length := List.length_pos.mpr this
    omega
  refine ⟨fun k => by simpa using hget k, ?_⟩
  intro i j hij
  have hi := hget i
  have hj := hget j
  have hsucc := sumSizes_take_succ (perFile fn (collOuts cap ds)) i
  have hmono := sumSizes_take_mono (perFile fn (collOuts cap ds)) (i.1 + 1) j.1 hij
  have hpi : 0 < ((perFile fn (collOuts cap ds)).get i).2 :=
    hszpos _ (List.get_mem _ _ _)
  constructor <;> omega

/-- Witness for C4 at a concrete run: three non-empty blocks with a cap that
forces a rollover after the second block. -/
theorem store_block_offset_spec_witness :
    (∀ d ∈ [[1, 2, 3], [4, 5], [6]], d ≠ ([] : Bytes)) ∧
    (∀ k : Fin (perFile 0 (collOuts 5 [[1, 2, 3], [4, 5], [6]])).length,
      ((perFile 0 (collOuts 5 [[1, 2, 3], [4, 5], [6]])).get k).1 =
        sumSizes ((perFile 0 (collOuts 5 [[1, 2, 3], [4, 5], [6]])).take k.1)) ∧
    (∀ i j : Fin (perFile 0 (collOuts 5 [[1, 2, 3], [4, 5], [6]])).length, i.1 < j.1 →
      ((perFile 0 (collOuts 5 [[1, 2, 3], [4, 5], [6]])).get i).1 <
        ((perFile 0 (collOuts 5 [[1, 2, 3], [4, 5], [6]])).get j).1 ∧
      ((perFile 0 (collOuts 5 [[1, 2, 3], [4, 5], [6]])).get i).1 +
        ((perFile 0 (collOuts 5 [[1, 2, 3], [4, 5], [6]])).get i).2 ≤
        ((perFile 0 (collOuts 5 [[1, 2, 3], [4, 5], [6]])).get j).1) :=
  ⟨by decide, store_block_offset_spec 5 [[1, 2, 3], [4, 5], [6]] 0 (by decide)⟩

/-! ## Manifest records and the per-file backup pipeline (`baq/backup.py`)

`do_backup` walks the tree and appends JSON-line records to the manifest.
The concurrent per-file pipeline of `backup_file_contents` is embedded by its
sequential semantics: the reader thread fills the store queue in file order
and the single store thread emits one `file_data` record per block in that
order, so the pipeline is the left-to-right fold below.  The compress and
encrypt stage consults the previous-backup index first; `block_cache` is
consulted again by the store thread under `block_cache_mutex`, and since the
cache entry of a digest is written at most once, both checks resolve to the
same entry — the model performs the lookup at store time.  The float fields
`compressed_size` and `compression_ratio` of `file_summary` are diagnostic
only and are not modelled. -/

/-- JSON scalar values appearing in manifest records. -/
inductive JVal where
  | jnum (n : Nat)
  | jstr (s : String)
  | jbool (b : Bool)
deriving Repr, DecidableEq

/-- Fields of the `baq_backup` header dict written at `do_backup` start:
`{'baq_backup': {'format_version': 1, 'block_size': block_size}}`. -/
def headerJsonFields (block_size : Nat) : List (String × JVal) :=
  [("format_version", JVal.jnum 1), ("block_size", JVal.jnum block_size)]

/-- Stat fields recorded for a directory or file entry (the `st_ctime_ns`,
`owner` and `group` fields are carried along by the manifest but never used
by any claim, and are omitted). -/
structure StatM where
  st_mtime_ns : Nat
  st_atime_ns : Nat
  st_mode : Nat
  st_uid : Nat
  st_gid : Nat
deriving Repr, DecidableEq

/-- One `file_data` record / one `FileBlock` of `BackupMetaReader`:
`(offset, size, sha3, aes_key, store_file, store_offset, store_size)`.
`store_file` is the data-file number (the name is its fixed format). -/
structure FileBlockM where
  offset : Nat
  size : Nat
  sha3 : Bytes
  aes_key : Bytes
  store_file : Nat
  store_offset : Nat
  store_size : Nat
deriving Repr, DecidableEq

/-- Manifest records, one JSON line each. -/
inductive Rec where
  | header (fields : List (String × JVal))
  | directory (path : String) (stat : StatM)
  | file (path : String) (stat : StatM)
  | file_data (fd : FileBlockM)
  | file_summary (size : Nat) (sha1 : Bytes)
deriving Repr, DecidableEq

/-- The in-memory `block_cache` dict, keyed by SHA3-512 digest. -/
abbrev Index := List (Bytes × FileBlockM)

/-- Dict lookup in `block_cache` (keys are unique: an entry is inserted only
when its digest was absent). -/
def findBlock : Index → Bytes → Option FileBlockM
  | [], _ => none
  | (k, m) :: rest, h => if k = h then some m else findBlock rest h

/-- Ghost record of one `data_collector.store_block` call: where the bytes
went, the bytes themselves, and the AES key and raw block they came from. -/
structure StoreEntry where
  store_file : Nat
  store_offset : Nat
  data : Bytes
  key : Bytes
  raw : Bytes
deriving Repr, DecidableEq

/-- Mutable state threaded through one backup run: the dedup `block_cache`,
the data collector, the ghost store log and the CSPRNG position. -/
structure BackupState where
  cache : Index
  coll : CollState
  log : List StoreEntry
  nonceCtr : Nat

/-- Backup state at the start of `do_backup`. -/
def backupInit : BackupState := ⟨[], collInit, [], 0⟩

/-- `S3DataCollector.data_file_size`: 100 GiB. -/
def data_file_size : Nat := 100 * 2 ^ 30

/-- The read loop of `backup_file_contents.read_thread`: note the file
offset (`f.tell()`), read up to `block_size` bytes, stop on empty read.
Returns the `(offset, raw block)` list in read order. -/
def chunksFrom (bs : Nat) (off : Nat) (data : Bytes) : List (Nat × Bytes) :=
  if h : bs = 0 ∨ data = [] then []
  else (off, data.take bs) :: chunksFrom bs (off + (data.take bs).length) (data.drop bs)
termination_by data.length
decreasing_by
  simp only [not_or] at h
  have h1 : bs ≠ 0 := h.1
  have h2 : data ≠ [] := h.2
  have h3 : 0 < data.length := List.length_pos.mpr h2
  simp only [List.length_drop]
  omega

/-- Processing of one block by the compress/encrypt and store stages: hash
it, consult the previous-backup index then `block_cache`; on a miss,
zstd-compress, AES-encrypt under the file key with a fresh nonce, store via
the collector, record the new location in `block_cache`; emit the
`file_data` record. -/
def processBlock (C : Crypto) (prev : Bytes → Option FileBlockM) (key : Bytes)
    (st : BackupState) (off : Nat) (raw : Bytes) : Rec × BackupState :=
  let h := C.sha3 raw
  match prev h with
  | some m =>
      (Rec.file_data ⟨off, raw.length, m.sha3, m.aes_key,
        m.store_file, m.store_offset, m.store_size⟩, st)
  | none =>
    match findBlock st.cache h with
    | some m =>
        (Rec.file_data ⟨off, raw.length, m.sha3, m.aes_key,
          m.store_file, m.store_offset, m.store_size⟩, st)
    | none =>
        let enc := encrypt_aes C key (C.nonces st.nonceCtr) (C.compress raw)
        let r := store_block data_file_size st.coll enc
        let m : FileBlockM := ⟨off, raw.length, h, key, r.1.1, r.1.2, enc.length⟩
        (Rec.file_data m,
          ⟨st.cache ++ [(h, m)], r.2,
           st.log ++ [⟨r.1.1, r.1.2, enc, key, raw⟩], st.nonceCtr + 1⟩)

/-- The store thread consuming the FIFO store queue in read order. -/
def processBlocks (C : Crypto) (prev : Bytes → Option FileBlockM) (key : Bytes) :
    BackupState → List (Nat × Bytes) → List Rec × BackupState
  | st, [] => ([], st)
  | st, (off, raw) :: rest =>
      let r := processBlock C prev key st off raw
      let r2 := processBlocks C prev key r.2 rest
      (r.1 :: r2.1, r2.2)

/-- Model of `backup_file_contents` for one file with contents `content` and
per-file AES key `key`: the `file_data` records in read order followed by the
`file_summary` record, whose `size` is `bytes_read` and whose `sha1` is the
whole-file hash of the bytes read. -/
def backup_file_contents (C : Crypto) (prev : Bytes → Option FileBlockM)
    (block_size : Nat) (key : Bytes) (st : BackupState) (content : Bytes) :
    List Rec × BackupState :=
  let chunks := chunksFrom block_size 0 content
  let r := processBlocks C prev key st chunks
  (r.1 ++ [Rec.file_summary ((chunks.map (fun c => c.2.length)).sum)
    (C.sha1 (chunks.map Prod.snd).flatten)], r.2)

/-- A directory entry or a regular file with its contents, in the order
`walk_files` yields them. -/
inductive FsEntry where
  | dir (path : String) (stat : StatM)
  | file (path : String) (stat : StatM) (content : Bytes)
deriving Repr, DecidableEq

/-- The entry loop of `do_backup`: a `directory` record per directory, and a
`file` record, the `backup_file_contents` records and a `file_summary` per
regular file.  Each file gets a fresh 32-byte key: file number `i` receives
`keys i`. -/
def backupEntries (C : Crypto) (prev : Bytes → Option FileBlockM)
    (block_size : Nat) (keys : Nat → Bytes) :
    List FsEntry → Nat → BackupState → List Rec × BackupState
  | [], _, st => ([], st)
  | FsEntry.dir p s :: rest, i, st =>
      let r := backupEntries C prev block_size keys rest i st
      (Rec.directory p s :: r.1, r.2)
  | FsEntry.file p s content :: rest, i, st =>
      let rf := backup_file_contents C prev block_size (keys i) st content
      let r := backupEntries C prev block_size keys rest (i + 1) rf.2
      (Rec.file p s :: (rf.1 ++ r.1), r.2)

/-- Model of `do_backup`: the `baq_backup` header followed by the records of
every entry of the tree. -/
def do_backup (C : Crypto) (prev : Bytes → Option FileBlockM) (block_size : Nat)
    (keys : Nat → Bytes) (tree : List FsEntry) : List Rec × BackupState :=
  let r := backupEntries C prev block_size keys tree 0 backupInit
  (Rec.header (headerJsonFields block_size) :: r.1, r.2)

/-- The `(offset, size)` pairs of the `file_data` records in a record list. -/
def fdFields (recs : List Rec) : List (Nat × Nat) :=
  recs.filterMap fun r =>
    match r with
    | Rec.file_data m => some (m.offset, m.size)
    | _ => none

/-- The `(offset, size)` pairs of the blocks the read loop produces. -/
def chunkSpans (bs off : Nat) (data : Bytes) : List (Nat × Nat) :=
  (chunksFrom bs off data).map (fun c => (c.1, c.2.length))

theorem chunkSpans_contiguous (bs : Nat) :
    ∀ off data, contiguousFrom off (chunkSpans bs off data) = true := by
  intro off data
  induction off, data using chunksFrom.induct bs with
  | case1 off data h =>
      rw [chunkSpans, chunksFrom, dif_pos h]
      rfl
  | case2 off data h ih =>
      rw [chunkSpans, chunksFrom, dif_neg h]
      simp only [List.map_cons, contiguousFrom, Bool.and_eq_true, decide_eq_true_eq]
      exact ⟨by trivial, ih⟩

theorem chunkSpans_pos (bs : Nat) :
    ∀ off data, ∀ p ∈ chunkSpans bs off data, 0 < p.2 := by
  intro off data
  induction off, data using chunksFrom.induct bs with
  | case1 off data h =>
      rw [chunkSpans, chunksFrom, dif_pos h]
      simp
  | case2 off data h ih =>
      rw [chunkSpans, chunksFrom, dif_neg h]
      simp only [not_or] at h
      intro p hp
      simp only [List.map_cons, List.mem_cons] at hp
      rcases hp with rfl | hp
      · have hd : data ≠ [] := h.2
        have hb : bs ≠ 0 := h.1
        have : 0 < data.length := List.length_pos.mpr hd
        simp only [List.length_take]
        omega
      · exact ih p hp

theorem chunkSpans_dropLast_size (bs : Nat) :
    ∀ off data, ∀ p ∈ (chunkSpans bs off data).dropLast, p.2 = bs := by
  intro off data
  induction off, data using chunksFrom.induct bs with
  | case1 off data h =>
      rw [chunkSpans, chunksFrom, dif_pos h]
      simp
  | case2 off data h ih =>
      intro p hp
      rw [chunkSpans, chunksFrom, dif_neg h] at hp
      simp only [List.map_cons] at hp
      rcases eq_or_ne ((chunksFrom bs (off + (data.take bs).length) (data.drop bs)).map
          (fun c => (c.1, c.2.length))) [] with hrest | hrest
      · rw [hrest] at hp
        simp at hp
      · rw [List.dropLast_cons_of_ne_nil hrest] at hp
        rcases List.mem_cons.mp hp with rfl | hp2
        · -- the head block is full: the recursion continued, so `bs < data.length`
          have hdrop : data.drop bs ≠ [] := by
            intro hd
            apply hrest
            rw [chunksFrom, dif_pos (Or.inr hd)]
            rfl
          have : bs < data.length := by
            by_contra hle
            exact hdrop (List.drop_eq_nil_of_le (by omega))
          simp only [List.length_take]
          omega
        · exact ih p hp2

theorem chunkSpans_sum (bs off : Nat) (data : Bytes) :
    sumSizes (chunkSpans bs off data) =
      ((chunksFrom bs off data).map (fun c => c.2.length)).sum := by
  simp [sumSizes, chunkSpans, List.map_map]
  rfl

theorem processBlock_shape (C : Crypto) (prev : Bytes → Option FileBlockM)
    (key : Bytes) (st : BackupState) (off : Nat) (raw : Bytes) :
    ∃ m : FileBlockM, (processBlock C prev key st off raw).1 = Rec.file_data m ∧
      m.offset = off ∧ m.size = raw.length := by
  rw [processBlock]
  cases prev (C.sha3 raw) with
  | some m => exact ⟨_, rfl, rfl, rfl⟩
  | none =>
      cases findBlock st.cache (C.sha3 raw) with
      | some m => exact ⟨_, rfl, rfl, rfl⟩
      | none => exact ⟨_, rfl, rfl, rfl⟩

theorem processBlocks_fdFields (C : Crypto) (prev : Bytes → Option FileBlockM)
    (key : Bytes) :
    ∀ (chunks : List (Nat × Bytes)) (st : BackupState),
    fdFields (processBlocks C prev key st chunks).1 =
      chunks.map (fun c => (c.1, c.2.length)) := by
  intro chunks
  induction chunks with
  | nil => intro st; rfl
  | cons c rest ih =>
      intro st
      obtain ⟨off, raw⟩ := c
      obtain ⟨m, hm, hoff, hsz⟩ := processBlock_shape C prev key st off raw
      simp only [processBlocks, fdFields, List.filterMap_cons, hm]
      simp only [fdFields] at ih
      simp [ih, hoff, hsz]

theorem processBlocks_all_file_data (C : Crypto) (prev : Bytes → Option FileBlockM)
    (key : Bytes) :
    ∀ (chunks : List (Nat × Bytes)) (st : BackupState),
    ∀ r ∈ (processBlocks C prev key st chunks).1, ∃ m, r = Rec.file_data m := by
  intro chunks
  induction chunks with
  | nil => simp [processBlocks]
  | cons c rest ih =>
      intro st r hr
      obtain ⟨off, raw⟩ := c
      obtain ⟨m, hm, _, _⟩ := processBlock_shape C prev key st off raw
      simp only [processBlocks, List.mem_cons] at hr
      rcases hr with rfl | hr
      · exact ⟨m, hm⟩
      · exact ih _ r hr

theorem fdFields_append (a b : List Rec) :
    fdFields (a ++ b) = fdFields a ++ fdFields b := by
  simp [fdFields]

theorem contiguousFrom_le_offset (l : List (Nat × Nat)) :
    ∀ s, contiguousFrom s l = true → ∀ p ∈ l, s ≤ p.1 := by
  induction l with
  | nil => simp
  | cons q rest ih =>
      obtain ⟨o, sz⟩ := q
      intro s hc p hp
      simp only [contiguousFrom, Bool.and_eq_true, decide_eq_true_eq] at hc
      obtain ⟨rfl, hrest⟩ := hc
      rcases List.mem_cons.mp hp with rfl | hp
      · exact le_refl _
      · have := ih (o + sz) hrest p hp
        omega

theorem contiguousFrom_offsets_sorted (l : List (Nat × Nat)) :
    ∀ s, contiguousFrom s l = true → (∀ p ∈ l, 0 < p.2) →
    (l.map Prod.fst).Pairwise (· < ·) := by
  induction l with
  | nil => simp
  | cons q rest ih =>
      obtain ⟨o, sz⟩ := q
      intro s hc hpos
      simp only [contiguousFrom, Bool.and_eq_true, decide_eq_true_eq] at hc
      obtain ⟨rfl, hrest⟩ := hc
      simp only [List.map_cons, List.pairwise_cons]
      constructor
      · intro b hb
        obtain ⟨p, hp, rfl⟩ := List.mem_map.mp hb
        have h1 := contiguousFrom_le_offset rest (o + sz) hrest p hp
        have h2 := hpos (o, sz) (by simp)
        simp only at h2
        omega
      · exact ih (o + sz) hrest (fun p hp => hpos p (List.mem_cons_of_mem _ hp))

/-- C2: for every file backed up by `backup_file_contents`, the records
emitted before the `file_summary` are exactly the `file_data` records; their
`(offset, size)` pairs partition `[0, file_summary.size)` contiguously and in
strictly ascending offset order (first offset 0, each offset the sum of the
previous sizes, the sizes summing to the `file_summary` size), and every
block except possibly the last has size `block_size`. -/
theorem backup_file_contents_contiguity (C : Crypto) (prev : Bytes → Option FileBlockM)
    (bs : Nat) (key : Bytes) (st : BackupState) (content : Bytes) :
    (∀ r ∈ ((backup_file_contents C prev bs key st content).1).dropLast,
      ∃ m, r = Rec.file_data m) ∧
    ((backup_file_contents C prev bs key st content).1).getLast? =
      some (Rec.file_summary
        (sumSizes (fdFields (backup_file_contents C prev bs key st content).1))
        (C.sha1 ((chunksFrom bs 0 content).map Prod.snd).flatten)) ∧
    contiguousFrom 0 (fdFields (backup_file_contents C prev bs key st content).1) = true ∧
    (∀ p ∈ (fdFields (backup_file_contents C prev bs key st content).1).dropLast,
      p.2 = bs) ∧
    (∀ p ∈ fdFields (backup_file_contents C prev bs key st content).1, 0 < p.2) ∧
    ((fdFields (backup_file_contents C prev bs key st content).1).map
      Prod.fst).Pairwise (· < ·) := by
  have hbody : (backup_file_contents C prev bs key st content).1 =
      (processBlocks C prev key st (chunksFrom bs 0 content)).1 ++
        [Rec.file_summary (((chunksFrom bs 0 content).map (fun c => c.2.length)).sum)
          (C.sha1 ((chunksFrom bs 0 content).map Prod.snd).flatten)] := rfl
  have hfd : fdFields (backup_file_contents C prev bs key st content).1 =
      chunkSpans bs 0 content := by
    rw [hbody, fdFields_append, processBlocks_fdFields]
    have h2 : fdFields [Rec.file_summary
        (((chunksFrom bs 0 content).map (fun c => c.2.length)).sum)
        (C.sha1 ((chunksFrom bs 0 content).map Prod.snd).flatten)] = [] := rfl
    rw [h2, List.append_nil]
    rfl
  have hcont := chunkSpans_contiguous bs 0 content
  have hpos := chunkSpans_pos bs 0 content
  refine ⟨?_, ?_, ?_, ?_, ?_, ?_⟩
  · rw [hbody, List.dropLast_concat]
    exact processBlocks_all_file_data C prev key _ st
  · rw [hbody, List.getLast?_concat, ← hbody, hfd, chunkSpans_sum]
  · rw [hfd]; exact hcont
  · rw [hfd]; exact chunkSpans_dropLast_size bs 0 content
  · rw [hfd]; exact hpos
  · rw [hfd]
    exact contiguousFrom_offsets_sorted _ 0 hcont hpos

/-! ## Dedup invariant (C3) -/

theorem findBlock_mem (c : Index) (h : Bytes) (m : FileBlockM)
    (hf : findBlock c h = some m) : (h, m) ∈ c := by
  induction c with
  | nil => simp [findBlock] at hf
  | cons km rest ih =>
      obtain ⟨k, m0⟩ := km
      simp only [findBlock] at hf
      split at hf
      · next heq =>
          subst heq
          simp only [Option.some.injEq] at hf
          subst hf
          simp
      · exact List.mem_cons_of_mem _ (ih hf)

theorem findBlock_eq_none (c : Index) (h : Bytes)
    (hn : findBlock c h = none) : ∀ km ∈ c, km.1 ≠ h := by
  induction c with
  | nil => simp
  | cons km rest ih =>
      obtain ⟨k, m0⟩ := km
      simp only [findBlock] at hn
      split at hn
      · simp at hn
      · next hne =>
          intro p hp
          rcases List.mem_cons.mp hp with rfl | hp
          · exact hne
          · exact ih hn p hp

theorem findBlock_append_some (c1 c2 : Index) (h : Bytes) (m : FileBlockM)
    (hf : findBlock c1 h = some m) : findBlock (c1 ++ c2) h = some m := by
  induction c1 with
  | nil => simp [findBlock] at hf
  | cons km rest ih =>
      obtain ⟨k, m0⟩ := km
      simp only [findBlock] at hf ⊢
      split at hf
      · next heq => simp [heq, hf]
      · next hne => simp only [if_neg hne]; exact ih hf

theorem findBlock_append_none (c1 c2 : Index) (h : Bytes)
    (hf : findBlock c1 h = none) : findBlock (c1 ++ c2) h = findBlock c2 h := by
  induction c1 with
  | nil => simp
  | cons km rest ih =>
      obtain ⟨k, m0⟩ := km
      simp only [findBlock] at hf ⊢
      split at hf
      · simp at hf
      · next hne => simp only [if_neg hne]; exact ih hf

/-- A cache state later in the run extends an earlier one (entries are only
appended, never removed or overwritten). -/
def cacheExt (c1 c2 : Index) : Prop := ∃ ext, c2 = c1 ++ ext

theorem cacheExt_refl (c : Index) : cacheExt c c := ⟨[], by simp⟩

theorem cacheExt_trans (a b c : Index) (h1 : cacheExt a b) (h2 : cacheExt b c) :
    cacheExt a c := by
  obtain ⟨e1, rfl⟩ := h1
  obtain ⟨e2, rfl⟩ := h2
  exact ⟨e1 ++ e2, by simp⟩

/-- A `file_data` record is backed either by the previous-backup index or by
a `block_cache` entry carrying the same storage location and key. -/
def recResolved (C : Crypto) (prev : Bytes → Option FileBlockM) (cache : Index)
    (m : FileBlockM) : Prop :=
  (∀ pm, prev m.sha3 = some pm → m.aes_key = pm.aes_key ∧
    m.store_file = pm.store_file ∧ m.store_offset = pm.store_offset ∧
    m.store_size = pm.store_size) ∧
  (prev m.sha3 = none → ∃ cm, findBlock cache m.sha3 = some cm ∧
    m.aes_key = cm.aes_key ∧ m.store_file = cm.store_file ∧
    m.store_offset = cm.store_offset ∧ m.store_size = cm.store_size)

theorem recResolved_mono (C : Crypto) (prev : Bytes → Option FileBlockM)
    (c1 c2 : Index) (m : FileBlockM) (hr : recResolved C prev c1 m)
    (he : cacheExt c1 c2) : recResolved C prev c2 m := by
  obtain ⟨ext, rfl⟩ := he
  refine ⟨hr.1, fun hp => ?_⟩
  obtain ⟨cm, hf, hrest⟩ := hr.2 hp
  exact ⟨cm, findBlock_append_some _ _ _ _ hf, hrest⟩

/-- Invariant of the backup state: cache keys are exactly the digests of the
raw blocks stored so far (in store order, without duplicates), every cache
entry points at the log entry that stored it with the same key and location,
cache entries exist only for digests absent from the previous backup, and
every stored byte string is the compress-then-encrypt of its raw block under
its logged key and a nonce already drawn. -/
def BInv (C : Crypto) (prev : Bytes → Option FileBlockM) (st : BackupState) : Prop :=
  (st.cache.map Prod.fst = st.log.map (fun e => C.sha3 e.raw)) ∧
  (st.cache.map Prod.fst).Nodup ∧
  (∀ km ∈ st.cache, km.2.sha3 = km.1 ∧ prev km.1 = none ∧
    ∃ e ∈ st.log, km.1 = C.sha3 e.raw ∧ km.2.aes_key = e.key ∧
      km.2.store_file = e.store_file ∧ km.2.store_offset = e.store_offset ∧
      km.2.store_size = e.data.length) ∧
  (∀ e ∈ st.log, ∃ i, i < st.nonceCtr ∧
    e.data = encrypt_aes C e.key (C.nonces i) (C.compress e.raw))

theorem BInv_init (C : Crypto) (prev : Bytes → Option FileBlockM) :
    BInv C prev backupInit := by
  refine ⟨rfl, by simp [backupInit], ?_, ?_⟩ <;> simp [backupInit]

theorem processBlock_prev_eq (C : Crypto) (prev : Bytes → Option FileBlockM)
    (key : Bytes) (st : BackupState) (off : Nat) (raw : Bytes) (pm : FileBlockM)
    (hp : prev (C.sha3 raw) = some pm) :
    processBlock C prev key st off raw =
      (Rec.file_data ⟨off, raw.length, pm.sha3, pm.aes_key,
        pm.store_file, pm.store_offset, pm.store_size⟩, st) := by
  simp [processBlock, hp]

theorem processBlock_hit_eq (C : Crypto) (prev : Bytes → Option FileBlockM)
    (key : Bytes) (st : BackupState) (off : Nat) (raw : Bytes) (cm : FileBlockM)
    (hp : prev (C.sha3 raw) = none) (hc : findBlock st.cache (C.sha3 raw) = some cm) :
    processBlock C prev key st off raw =
      (Rec.file_data ⟨off, raw.length, cm.sha3, cm.aes_key,
        cm.store_file, cm.store_offset, cm.store_size⟩, st) := by
  simp [processBlock, hp, hc]

/-- The encrypted bytes produced for a fresh block: compress then encrypt
under the file key with the next nonce. -/
def newEnc (C : Crypto) (key : Bytes) (st : BackupState) (raw : Bytes) : Bytes :=
  encrypt_aes C key (C.nonces st.nonceCtr) (C.compress raw)

/-- The `FileBlock` inserted into `block_cache` for a fresh block. -/
def newMeta (C : Crypto) (key : Bytes) (st : BackupState) (off : Nat) (raw : Bytes) :
    FileBlockM :=
  ⟨off, raw.length, C.sha3 raw, key,
   (store_block data_file_size st.coll (newEnc C key st raw)).1.1,
   (store_block data_file_size st.coll (newEnc C key st raw)).1.2,
   (newEnc C key st raw).length⟩

/-- The ghost store-log entry for a fresh block. -/
def newEntry (C : Crypto) (key : Bytes) (st : BackupState) (raw : Bytes) : StoreEntry :=
  ⟨(store_block data_file_size st.coll (newEnc C key st raw)).1.1,
   (store_block data_file_size st.coll (newEnc C key st raw)).1.2,
   newEnc C key st raw, key, raw⟩

theorem processBlock_new_eq (C : Crypto) (prev : Bytes → Option FileBlockM)
    (key : Bytes) (st : BackupState) (off : Nat) (raw : Bytes)
    (hp : prev (C.sha3 raw) = none) (hc : findBlock st.cache (C.sha3 raw) = none) :
    processBlock C prev key st off raw =
      (Rec.file_data (newMeta C key st off raw),
       ⟨st.cache ++ [(C.sha3 raw, newMeta C key st off raw)],
        (store_block data_file_size st.coll (newEnc C key st raw)).2,
        st.log ++ [newEntry C key st raw],
        st.nonceCtr + 1⟩) := by
  simp [processBlock, hp, hc, newMeta, newEnc, newEntry]

theorem processBlock_step (C : Crypto) (prev : Bytes → Option FileBlockM)
    (key : Bytes) (st : BackupState) (off : Nat) (raw : Bytes)
    (hwf : ∀ h m, prev h = some m → m.sha3 = h) (hinv : BInv C prev st) :
    BInv C prev (processBlock C prev key st off raw).2 ∧
    cacheExt st.cache (processBlock C prev key st off raw).2.cache ∧
    (∃ ext, (processBlock C prev key st off raw).2.log = st.log ++ ext ∧
      ∀ e ∈ ext, e.key = key) ∧
    (∀ m, (processBlock C prev key st off raw).1 = Rec.file_data m →
      recResolved C prev (processBlock C prev key st off raw).2.cache m ∧
      m.size = raw.length ∧ m.sha3 = C.sha3 raw) := by
  obtain ⟨hmap, hnodup, hcache, hlog⟩ := hinv
  cases hp : prev (C.sha3 raw) with
  | some pm =>
      rw [processBlock_prev_eq C prev key st off raw pm hp]
      refine ⟨⟨hmap, hnodup, hcache, hlog⟩, cacheExt_refl _, ⟨[], by simp⟩, ?_⟩
      intro m hm
      simp only [Rec.file_data.injEq] at hm
      subst hm
      have hsha : pm.sha3 = C.sha3 raw := hwf _ _ hp
      refine ⟨⟨?_, ?_⟩, rfl, hsha⟩
      · intro pm' hpm'
        simp only [hsha, hp, Option.some.injEq] at hpm'
        subst hpm'
        exact ⟨rfl, rfl, rfl, rfl⟩
      · intro hnone
        simp only [hsha, hp] at hnone
        exact Option.noConfusion hnone
  | none =>
      cases hc : findBlock st.cache (C.sha3 raw) with
      | some cm =>
          rw [processBlock_hit_eq C prev key st off raw cm hp hc]
          refine ⟨⟨hmap, hnodup, hcache, hlog⟩, cacheExt_refl _, ⟨[], by simp⟩, ?_⟩
          intro m hm
          simp only [Rec.file_data.injEq] at hm
          subst hm
          have hmem := findBlock_mem _ _ _ hc
          have hsha : cm.sha3 = C.sha3 raw := (hcache _ hmem).1
          refine ⟨⟨?_, ?_⟩, rfl, hsha⟩
          · intro pm' hpm'
            simp only [hsha, hp] at hpm'
            exact Option.noConfusion hpm'
          · intro _
            refine ⟨cm, ?_, rfl, rfl, rfl, rfl⟩
            show findBlock st.cache cm.sha3 = some cm
            rw [hsha]
            exact hc
      | none =>
          rw [processBlock_new_eq C prev key st off raw hp hc]
          dsimp only
          have hnew : (C.sha3 raw) ∉ st.cache.map Prod.fst := by
            intro hmem
            obtain ⟨km, hkm, hfst⟩ := List.mem_map.mp hmem
            exact findBlock_eq_none _ _ hc km hkm hfst
          refine ⟨⟨?_, ?_, ?_, ?_⟩,
            ⟨[(C.sha3 raw, newMeta C key st off raw)], rfl⟩,
            ⟨[newEntry C key st raw], rfl, by simp [newEntry]⟩, ?_⟩
          · simp only [List.map_append, List.map_cons, List.map_nil, hmap]
            simp [newEntry]
          · simp only [List.map_append, List.map_cons, List.map_nil]
            rw [List.nodup_append]
            refine ⟨hnodup, by simp, ?_⟩
            intro a ha hb
            simp only [List.mem_singleton] at hb
            subst hb
            exact hnew ha
          · intro km hkm
            rcases List.mem_append.mp hkm with hkm | hkm
            · obtain ⟨h1, h2, e, he, hrest⟩ := hcache km hkm
              exact ⟨h1, h2, e, List.mem_append_left _ he, hrest⟩
            · simp only [List.mem_singleton] at hkm
              subst hkm
              refine ⟨rfl, hp, ?_⟩
              refine ⟨newEntry C key st raw, List.mem_append_right _ (by simp), ?_, ?_, ?_, ?_, ?_⟩ <;>
                simp [newEntry, newMeta]
          · intro e he
            rcases List.mem_append.mp he with he | he
            · obtain ⟨i, hi, hd⟩ := hlog e he
              exact ⟨i, Nat.lt_succ_of_lt hi, hd⟩
            · simp only [List.mem_singleton] at he
              subst he
              exact ⟨st.nonceCtr, Nat.lt_succ_self _, by simp [newEntry, newEnc]⟩
          · intro m hm
            simp only [Rec.file_data.injEq] at hm
            subst hm
            refine ⟨⟨?_, ?_⟩, by simp [newMeta], by simp [newMeta]⟩
            · intro pm' hpm'
              simp only [newMeta, hp] at hpm'
              exact Option.noConfusion hpm'
            · intro _
              refine ⟨newMeta C key st off raw, ?_, rfl, rfl, rfl, rfl⟩
              show findBlock (st.cache ++ [(C.sha3 raw, newMeta C key st off raw)])
                (newMeta C key st off raw).sha3 = some (newMeta C key st off raw)
              have hsha : (newMeta C key st off raw).sha3 = C.sha3 raw := rfl
              rw [hsha, findBlock_append_none _ _ _ hc]
              simp [findBlock]

theorem processBlocks_inv (C : Crypto) (prev : Bytes → Option FileBlockM)
    (key : Bytes) (hwf : ∀ h m, prev h = some m → m.sha3 = h) :
    ∀ (chunks : List (Nat × Bytes)) (st : BackupState), BInv C prev st →
    BInv C prev (processBlocks C prev key st chunks).2 ∧
    cacheExt st.cache (processBlocks C prev key st chunks).2.cache ∧
    (∃ ext, (processBlocks C prev key st chunks).2.log = st.log ++ ext ∧
      ∀ e ∈ ext, e.key = key) ∧
    (∀ m, Rec.file_data m ∈ (processBlocks C prev key st chunks).1 →
      recResolved C prev (processBlocks C prev key st chunks).2.cache m) := by
  intro chunks
  induction chunks with
  | nil =>
      intro st hinv
      exact ⟨hinv, cacheExt_refl _, ⟨[], by simp [processBlocks]⟩, by simp [processBlocks]⟩
  | cons c rest ih =>
      intro st hinv
      obtain ⟨off, raw⟩ := c
      obtain ⟨hinv1, hext1, ⟨e1, he1, hk1⟩, hrec1⟩ :=
        processBlock_step C prev key st off raw hwf hinv
      obtain ⟨hinv2, hext2, ⟨e2, he2, hk2⟩, hrec2⟩ :=
        ih (processBlock C prev key st off raw).2 hinv1
      refine ⟨hinv2, cacheExt_trans _ _ _ hext1 hext2, ?_, ?_⟩
      · refine ⟨e1 ++ e2, ?_, ?_⟩
        · rw [show (processBlocks C prev key st ((off, raw) :: rest)).2 =
            (processBlocks C prev key (processBlock C prev key st off raw).2 rest).2
            from rfl, he2, he1, List.append_assoc]
        · intro e he
          rcases List.mem_append.mp he with he | he
          · exact hk1 e he
          · exact hk2 e he
      · intro m hm
        rw [show (processBlocks C prev key st ((off, raw) :: rest)).1 =
          (processBlock C prev key st off raw).1 ::
            (processBlocks C prev key (processBlock C prev key st off raw).2 rest).1
          from rfl] at hm
        rcases List.mem_cons.mp hm with hm | hm
        · exact recResolved_mono C prev _ _ m ((hrec1 m hm.symm).1) hext2
        · exact hrec2 m hm

theorem backup_file_contents_inv (C : Crypto) (prev : Bytes → Option FileBlockM)
    (bs : Nat) (key : Bytes) (st : BackupState) (content : Bytes)
    (hwf : ∀ h m, prev h = some m → m.sha3 = h) (hinv : BInv C prev st) :
    BInv C prev (backup_file_contents C prev bs key st content).2 ∧
    cacheExt st.cache (backup_file_contents C prev bs key st content).2.cache ∧
    (∃ ext, (backup_file_contents C prev bs key st content).2.log = st.log ++ ext ∧
      ∀ e ∈ ext, e.key = key) ∧
    (∀ m, Rec.file_data m ∈ (backup_file_contents C prev bs key st content).1 →
      recResolved C prev (backup_file_contents C prev bs key st content).2.cache m) := by
  obtain ⟨h1, h2, h3, h4⟩ :=
    processBlocks_inv C prev key hwf (chunksFrom bs 0 content) st hinv
  refine ⟨h1, h2, h3, ?_⟩
  intro m hm
  rw [show (backup_file_contents C prev bs key st content).1 =
    (processBlocks C prev key st (chunksFrom bs 0 content)).1 ++
      [Rec.file_summary (((chunksFrom bs 0 content).map (fun c => c.2.length)).sum)
        (C.sha1 ((chunksFrom bs 0 content).map Prod.snd).flatten)] from rfl] at hm
  rcases List.mem_append.mp hm with hm | hm
  · exact h4 m hm
  · simp at hm

theorem backupEntries_inv (C : Crypto) (prev : Bytes → Option FileBlockM)
    (bs : Nat) (keys : Nat → Bytes)
    (hwf : ∀ h m, prev h = some m → m.sha3 = h) :
    ∀ (tree : List FsEntry) (i : Nat) (st : BackupState), BInv C prev st →
    BInv C prev (backupEntries C prev bs keys tree i st).2 ∧
    cacheExt st.cache (backupEntries C prev bs keys tree i st).2.cache ∧
    (∃ ext, (backupEntries C prev bs keys tree i st).2.log = st.log ++ ext ∧
      ∀ e ∈ ext, ∃ j, i ≤ j ∧ e.key = keys j) ∧
    (∀ m, Rec.file_data m ∈ (backupEntries C prev bs keys tree i st).1 →
      recResolved C prev (backupEntries C prev bs keys tree i st).2.cache m) := by
  intro tree
  induction tree with
  | nil =>
      intro i st hinv
      exact ⟨hinv, cacheExt_refl _, ⟨[], by simp [backupEntries]⟩, by simp [backupEntries]⟩
  | cons entry rest ih =>
      intro i st hinv
      cases entry with
      | dir p s =>
          obtain ⟨h1, h2, h3, h4⟩ := ih i st hinv
          refine ⟨h1, h2, h3, ?_⟩
          intro m hm
          rw [show (backupEntries C prev bs keys (FsEntry.dir p s :: rest) i st).1 =
            Rec.directory p s :: (backupEntries C prev bs keys rest i st).1 from rfl] at hm
          rcases List.mem_cons.mp hm with hm | hm
          · exact absurd hm (by simp)
          · exact h4 m hm
      | file p s content =>
          obtain ⟨hf1, hf2, ⟨e1, he1, hk1⟩, hf4⟩ :=
            backup_file_contents_inv C prev bs (keys i) st content hwf hinv
          obtain ⟨h1, h2, ⟨e2, he2, hk2⟩, h4⟩ :=
            ih (i + 1) (backup_file_contents C prev bs (keys i) st content).2 hf1
          refine ⟨h1, cacheExt_trans _ _ _ hf2 h2, ?_, ?_⟩
          · refine ⟨e1 ++ e2, ?_, ?_⟩
            · rw [show (backupEntries C prev bs keys (FsEntry.file p s content :: rest) i st).2 =
                (backupEntries C prev bs keys rest (i + 1)
                  (backup_file_contents C prev bs (keys i) st content).2).2 from rfl,
                he2, he1, List.append_assoc]
            · intro e he
              rcases List.mem_append.mp he with he | he
              · exact ⟨i, le_refl _, hk1 e he⟩
              · obtain ⟨j, hj, hkey⟩ := hk2 e he
                exact ⟨j, by omega, hkey⟩
          · intro m hm
            rw [show (backupEntries C prev bs keys (FsEntry.file p s content :: rest) i st).1 =
              Rec.file p s :: ((backup_file_contents C prev bs (keys i) st content).1 ++
                (backupEntries C prev bs keys rest (i + 1)
                  (backup_file_contents C prev bs (keys i) st content).2).1) from rfl] at hm
            rcases List.mem_cons.mp hm with hm | hm
            · exact absurd hm (by simp)
            · rcases List.mem_append.mp hm with hm | hm
              · exact recResolved_mono C prev _ _ m (hf4 m hm) h2
              · exact h4 m hm

/-- C3: within one backup run, `store_block` is invoked at most once per raw
block content (the digests of the stored blocks are pairwise distinct); every
stored byte string is the zstd-compress-then-AES-encrypt of its raw block
under the key recorded with it, which is the per-file key of the file that
stored it; all `file_data` records citing the same SHA3-512 digest carry the
same `(store_file, store_offset, store_size, aes_key)`; a record whose digest
is not in the previous-backup index cites an actual store of this run whose
encryption key equals the record's `aes_key`; and a record whose digest is in
the previous-backup index keeps that index entry's key and location. -/
theorem do_backup_dedup (C : Crypto) (prev : Bytes → Option FileBlockM)
    (bs : Nat) (keys : Nat → Bytes) (tree : List FsEntry)
    (hwf : ∀ h m, prev h = some m → m.sha3 = h) :
    (((do_backup C prev bs keys tree).2.log.map (fun e => C.sha3 e.raw)).Nodup) ∧
    (∀ e ∈ (do_backup C prev bs keys tree).2.log,
      (∃ i, e.data = encrypt_aes C e.key (C.nonces i) (C.compress e.raw)) ∧
      ∃ j, e.key = keys j) ∧
    (∀ m1 m2 : FileBlockM, Rec.file_data m1 ∈ (do_backup C prev bs keys tree).1 →
      Rec.file_data m2 ∈ (do_backup C prev bs keys tree).1 → m1.sha3 = m2.sha3 →
      m1.store_file = m2.store_file ∧ m1.store_offset = m2.store_offset ∧
      m1.store_size = m2.store_size ∧ m1.aes_key = m2.aes_key) ∧
    (∀ m : FileBlockM, Rec.file_data m ∈ (do_backup C prev bs keys tree).1 →
      prev m.sha3 = none →
      ∃ e ∈ (do_backup C prev bs keys tree).2.log, C.sha3 e.raw = m.sha3 ∧
        e.store_file = m.store_file ∧ e.store_offset = m.store_offset ∧
        e.data.length = m.store_size ∧ e.key = m.aes_key) ∧
    (∀ (m pm : FileBlockM), Rec.file_data m ∈ (do_backup C prev bs keys tree).1 →
      prev m.sha3 = some pm →
      m.aes_key = pm.aes_key ∧ m.store_file = pm.store_file ∧
      m.store_offset = pm.store_offset ∧ m.store_size = pm.store_size) := by
  obtain ⟨⟨hmap, hnodup, hcache, hlog⟩, _, ⟨ext, hext, hkeys⟩, hrec⟩ :=
    backupEntries_inv C prev bs keys hwf tree 0 backupInit (BInv_init C prev)
  have hrecs : (do_backup C prev bs keys tree).1 =
      Rec.header (headerJsonFields bs) ::
        (backupEntries C prev bs keys tree 0 backupInit).1 := rfl
  have hst : (do_backup C prev bs keys tree).2 =
      (backupEntries C prev bs keys tree 0 backupInit).2 := rfl
  have hmem : ∀ m : FileBlockM, Rec.file_data m ∈ (do_backup C prev bs keys tree).1 →
      Rec.file_data m ∈ (backupEntries C prev bs keys tree 0 backupInit).1 := by
    intro m hm
    rw [hrecs] at hm
    rcases List.mem_cons.mp hm with hm | hm
    · exact absurd hm (by simp)
    · exact hm
  refine ⟨?_, ?_, ?_, ?_, ?_⟩
  · rw [hst, ← hmap]
    exact hnodup
  · intro e he
    rw [hst] at he
    refine ⟨?_, ?_⟩
    · obtain ⟨i, _, hd⟩ := hlog e he
      exact ⟨i, hd⟩
    · rw [hext] at he
      simp only [backupInit, List.nil_append] at he
      obtain ⟨j, _, hkey⟩ := hkeys e he
      exact ⟨j, hkey⟩
  · intro m1 m2 hm1 hm2 hsha
    have hr1 := hrec m1 (hmem m1 hm1)
    have hr2 := hrec m2 (hmem m2 hm2)
    cases hp : prev m1.sha3 with
    | some pm =>
        obtain ⟨hk1, hf1, ho1, hs1⟩ := hr1.1 pm hp
        obtain ⟨hk2, hf2, ho2, hs2⟩ := hr2.1 pm (by rw [← hsha]; exact hp)
        exact ⟨by rw [hf1, hf2], by rw [ho1, ho2], by rw [hs1, hs2], by rw [hk1, hk2]⟩
    | none =>
        obtain ⟨cm1, hfind1, hk1, hf1, ho1, hs1⟩ := hr1.2 hp
        obtain ⟨cm2, hfind2, hk2, hf2, ho2, hs2⟩ := hr2.2 (by rw [← hsha]; exact hp)
        rw [← hsha] at hfind2
        rw [hfind1] at hfind2
        have : cm2 = cm1 := by
          simpa using hfind2.symm
        subst this
        exact ⟨by rw [hf1, hf2], by rw [ho1, ho2], by rw [hs1, hs2], by rw [hk1, hk2]⟩
  · intro m hm hp
    obtain ⟨cm, hfind, hk, hf, ho, hs⟩ := (hrec m (hmem m hm)).2 hp
    have hmemc := findBlock_mem _ _ _ hfind
    obtain ⟨hcm_sha, _, e, he_mem, he_raw, he_key, he_file, he_off, he_size⟩ :=
      hcache _ hmemc
    refine ⟨e, by rw [hst]; exact he_mem, ?_, ?_, ?_, ?_, ?_⟩
    · exact he_raw.symm
    · rw [hf, ← he_file]
    · rw [ho, ← he_off]
    · rw [hs, ← he_size]
    · rw [hk, ← he_key]
  · intro m pm hm hp
    exact (hrec m (hmem m hm)).1 pm hp

/-- Concrete executable instantiation of the external primitives, used by the
witnesses below. -/
def toyCrypto : Crypto :=
  ⟨fun b => [b.sum % 251, b.length % 251],
   fun b => [b.sum % 97],
   fun b => 0 :: b,
   fun b => b.drop 1,
   fun _ _ i => (i + 3) % 256,
   fun i => List.replicate 16 (i % 256)⟩

/-- Concrete per-file key supply for the witnesses. -/
def toyKeys (i : Nat) : Bytes := List.replicate 32 (i % 256)

/-- Empty previous-backup index (first backup to a destination). -/
def toyPrev : Bytes → Option FileBlockM := fun _ => none

/-- Concrete tree with two identical files (scenario S6) and a directory. -/
def toyTree : List FsEntry :=
  [FsEntry.dir "d" ⟨1, 2, 488, 0, 0⟩,
   FsEntry.file "d/a.txt" ⟨3, 4, 420, 0, 0⟩ [9, 8, 7, 6, 5],
   FsEntry.file "d/b.txt" ⟨5, 6, 420, 0, 0⟩ [9, 8, 7, 6, 5]]

/-- Witness for C3 at the concrete S6-style inputs. -/
theorem do_backup_dedup_witness :
    (∀ h m, toyPrev h = some m → m.sha3 = h) ∧
    ((((do_backup toyCrypto toyPrev 4 toyKeys toyTree).2.log.map
        (fun e => toyCrypto.sha3 e.raw)).Nodup) ∧
      (∀ e ∈ (do_backup toyCrypto toyPrev 4 toyKeys toyTree).2.log,
        (∃ i, e.data = encrypt_aes toyCrypto e.key (toyCrypto.nonces i)
          (toyCrypto.compress e.raw)) ∧
        ∃ j, e.key = toyKeys j) ∧
      (∀ m1 m2 : FileBlockM,
        Rec.file_data m1 ∈ (do_backup toyCrypto toyPrev 4 toyKeys toyTree).1 →
        Rec.file_data m2 ∈ (do_backup toyCrypto toyPrev 4 toyKeys toyTree).1 →
        m1.sha3 = m2.sha3 →
        m1.store_file = m2.store_file ∧ m1.store_offset = m2.store_offset ∧
        m1.store_size = m2.store_size ∧ m1.aes_key = m2.aes_key) ∧
      (∀ m : FileBlockM,
        Rec.file_data m ∈ (do_backup toyCrypto toyPrev 4 toyKeys toyTree).1 →
        toyPrev m.sha3 = none →
        ∃ e ∈ (do_backup toyCrypto toyPrev 4 toyKeys toyTree).2.log,
          toyCrypto.sha3 e.raw = m.sha3 ∧
          e.store_file = m.store_file ∧ e.store_offset = m.store_offset ∧
          e.data.length = m.store_size ∧ e.key = m.aes_key) ∧
      (∀ (m pm : FileBlockM),
        Rec.file_data m ∈ (do_backup toyCrypto toyPrev 4 toyKeys toyTree).1 →
        toyPrev m.sha3 = some pm →
        m.aes_key = pm.aes_key ∧ m.store_file = pm.store_file ∧
        m.store_offset = pm.store_offset ∧ m.store_size = pm.store_size)) :=
  ⟨fun _ m hm => Option.noConfusion hm,
   do_backup_dedup toyCrypto toyPrev 4 toyKeys toyTree
     (fun _ m hm => Option.noConfusion hm)⟩

/-! ## Ranged reads (`S3Backend.retrieve_file_range` and
`S3Backend.retrieve_file_ranges` in `baq/backends/s3_backend.py`)

The remote object is its byte string; `get_object` with
`Range=bytes=a..b-1` returns the slice `[a, b)` and `res.Body.read(n)`
consumes `n` bytes of it in order. -/

/-- Model of `retrieve_file_range(filename, offset, size)`: one ranged
`get_object` returning the bytes at `[offset, offset + size)`. -/
def retrieve_file_range (content : Bytes) (offset size : Nat) : Bytes :=
  sliceL content offset size

/-- The scan of `retrieve_file_ranges` that computes
`consecutive_range_end`: starting from the end of the first range, extend
over each following range while its offset equals the running end. -/
def coEnd (e : Nat) : List (Nat × Nat) → Nat
  | [] => e
  | (o, s) :: rest => if e = o then coEnd (e + s) rest else e

/-- The inner loop of `retrieve_file_ranges`: pop ranges off the deque,
read `size` bytes from the response body for each, and stop after the range
whose end equals `consecutive_range_end`.  Returns the yielded byte strings
and the ranges left on the deque. -/
def serveRun (stream : Bytes) (e : Nat) : List (Nat × Nat) → List Bytes × List (Nat × Nat)
  | [] => ([], [])
  | (o, s) :: rest =>
      let d := stream.take s
      if o + s = e then ([d], rest)
      else
        let p := serveRun (stream.drop s) e rest
        (d :: p.1, p.2)

theorem serveRun_rem_lt (e : Nat) :
    ∀ (items : List (Nat × Nat)) (stream : Bytes), items ≠ [] →
    (serveRun stream e items).2.length < items.length := by
  intro items
  induction items with
  | nil => intro stream h; exact absurd rfl h
  | cons r rest ih =>
      intro stream _
      obtain ⟨o, s⟩ := r
      rw [serveRun]
      split
      · simp
      · rcases eq_or_ne rest [] with rfl | hne
        · simp [serveRun]
        · have := ih (stream.drop s) hne
          simp only [List.length_cons]
          omega

/-- The outer loop of `retrieve_file_ranges`: as long as the deque is
non-empty, compute `consecutive_range_end`, issue one `get_object` request
for `bytes=o..end-1`, and stream the popped ranges from its body.  Returns
the yielded byte strings in order together with the list of
`(request offset, request length)` of the issued HTTP requests. -/
def rfLoop (content : Bytes) (ranges : List (Nat × Nat)) :
    List Bytes × List (Nat × Nat) :=
  match hr : ranges with
  | [] => ([], [])
  | (o, s) :: rest =>
      let e := coEnd (o + s) rest
      let p := serveRun (sliceL content o (e - o)) e ((o, s) :: rest)
      let q := rfLoop content p.2
      (p.1 ++ q.1, (o, e - o) :: q.2)
termination_by ranges.length
decreasing_by
  have := serveRun_rem_lt (coEnd (o + s) rest) ((o, s) :: rest)
    (sliceL content o (coEnd (o + s) rest - o)) (by simp)
  simpa using this

/-- Model of `retrieve_file_ranges(filename, offset_size_list)`: the lazy
sequence of byte strings yielded, in input order. -/
def retrieve_file_ranges (content : Bytes) (ranges : List (Nat × Nat)) : List Bytes :=
  (rfLoop content ranges).1

/-- The pops of one run are well-formed: each popped range is adjacent to
the previous one and stays below the computed end, and the loop breaks at a
range ending exactly at the computed end. -/
inductive Serveable : Nat → Nat → List (Nat × Nat) → Prop
  | brk (o s e : Nat) (rest : List (Nat × Nat)) :
      o + s = e → Serveable o e ((o, s) :: rest)
  | step (o s e : Nat) (rest : List (Nat × Nat)) :
      o + s ≠ e → o + s ≤ e → Serveable (o + s) e rest →
      Serveable o e ((o, s) :: rest)

theorem coEnd_ge : ∀ (l : List (Nat × Nat)) (e : Nat), e ≤ coEnd e l := by
  intro l
  induction l with
  | nil => intro e; exact le_refl _
  | cons r rest ih =>
      intro e
      obtain ⟨o, s⟩ := r
      rw [coEnd]
      split
      · have := ih (e + s)
        omega
      · exact le_refl _

theorem serveable_of_coEnd :
    ∀ (rest : List (Nat × Nat)) (o s : Nat),
    Serveable o (coEnd (o + s) rest) ((o, s) :: rest) := by
  intro rest
  induction rest with
  | nil =>
      intro o s
      exact Serveable.brk o s _ _ (by simp [coEnd])
  | cons r rfst ih =>
      intro o s
      obtain ⟨o2, s2⟩ := r
      by_cases hadj : o + s = o2
      · subst hadj
        have hco : coEnd (o + s) ((o + s, s2) :: rfst) = coEnd (o + s + s2) rfst := by
          simp [coEnd]
        rw [hco]
        rcases eq_or_ne (o + s) (coEnd (o + s + s2) rfst) with heq | hne
        · exact Serveable.brk o s _ _ heq
        · refine Serveable.step o s _ _ hne ?_ (ih (o + s) s2)
          have h1 := coEnd_ge rfst (o + s + s2)
          omega
      · have hco : coEnd (o + s) ((o2, s2) :: rfst) = o + s := by
          simp [coEnd, hadj]
        rw [hco]
        exact Serveable.brk o s _ _ rfl

theorem serveRun_spec (c : Bytes) :
    ∀ (o e : Nat) (items : List (Nat × Nat)), Serveable o e items →
    ∃ served rem, items = served ++ rem ∧ served ≠ [] ∧
      serveRun (sliceL c o (e - o)) e items =
        (served.map (fun r => sliceL c r.1 r.2), rem) := by
  intro o e items hs
  induction hs with
  | brk o s e rest h =>
      refine ⟨[(o, s)], rest, by simp, by simp, ?_⟩
      rw [serveRun]
      simp only [if_pos h]
      have : e - o = s := by omega
      rw [this]
      have htake : (sliceL c o s).take s = sliceL c o s := by
        simp [sliceL, List.take_take]
      rw [htake]
      simp
  | step o s e rest hne hle hserv ih =>
      obtain ⟨served, rem, hitems, hns, hrun⟩ := ih
      refine ⟨(o, s) :: served, rem, by simp [hitems], by simp, ?_⟩
      rw [serveRun]
      simp only [if_neg hne]
      have htake : (sliceL c o (e - o)).take s = sliceL c o s := by
        simp only [sliceL, List.take_take]
        congr 1
        omega
      have hdrop : (sliceL c o (e - o)).drop s = sliceL c (o + s) (e - (o + s)) := by
        simp only [sliceL, List.drop_take, List.drop_drop]
        congr 1
        omega
      rw [htake, hdrop, hrun]
      simp

theorem rfLoop_nil (content : Bytes) : rfLoop content [] = ([], []) := by
  rw [rfLoop]

theorem rfLoop_cons (content : Bytes) (o s : Nat) (rest : List (Nat × Nat)) :
    rfLoop content ((o, s) :: rest) =
      ((serveRun (sliceL content o (coEnd (o + s) rest - o))
          (coEnd (o + s) rest) ((o, s) :: rest)).1 ++
        (rfLoop content (serveRun (sliceL content o (coEnd (o + s) rest - o))
          (coEnd (o + s) rest) ((o, s) :: rest)).2).1,
       (o, coEnd (o + s) rest - o) ::
        (rfLoop content (serveRun (sliceL content o (coEnd (o + s) rest - o))
          (coEnd (o + s) rest) ((o, s) :: rest)).2).2) := by
  rw [rfLoop]

theorem rf_eq_aux (content : Bytes) :
    ∀ (n : Nat) (ranges : List (Nat × Nat)), ranges.length ≤ n →
    retrieve_file_ranges content ranges =
      ranges.map (fun r => retrieve_file_range content r.1 r.2) := by
  intro n
  induction n with
  | zero =>
      intro ranges h
      have hr : ranges = [] := List.eq_nil_of_length_eq_zero (by omega)
      subst hr
      simp [retrieve_file_ranges, rfLoop_nil]
  | succ n ih =>
      intro ranges h
      rcases ranges with _ | ⟨⟨o, s⟩, rest⟩
      · simp [retrieve_file_ranges, rfLoop_nil]
      · have hserv := serveable_of_coEnd rest o s
        obtain ⟨served, rem, hitems, hns, hrun⟩ :=
          serveRun_spec content o (coEnd (o + s) rest) ((o, s) :: rest) hserv
        have hlen : rem.length ≤ n := by
          have h1 : ((o, s) :: rest).length = served.length + rem.length := by
            rw [hitems, List.length_append]
          have h2 : 0 < served.length := List.length_pos.mpr hns
          simp only [List.length_cons] at h h1
          omega
        have hihrem := ih rem hlen
        rw [retrieve_file_ranges] at hihrem ⊢
        rw [rfLoop_cons, hrun]
        simp only
        rw [hihrem, hitems, List.map_append]
        rfl

/-- C5, equivalence half: the yielded sequence equals calling
`retrieve_file_range` separately on each input range, in order. -/
theorem retrieve_file_ranges_eq (content : Bytes) (ranges : List (Nat × Nat)) :
    retrieve_file_ranges content ranges =
      ranges.map (fun r => retrieve_file_range content r.1 r.2) :=
  rf_eq_aux content ranges.length ranges (le_refl _)

/-- Maximal exactly-adjacent prefix of a range list, starting from end `e`:
the ranges taken while each offset equals the running end, and the rest. -/
def takeChain (e : Nat) : List (Nat × Nat) → List (Nat × Nat) × List (Nat × Nat)
  | [] => ([], [])
  | (o, s) :: rest =>
      if o = e then
        let p := takeChain (o + s) rest
        ((o, s) :: p.1, p.2)
      else ([], (o, s) :: rest)

theorem takeChain_append (l : List (Nat × Nat)) :
    ∀ e, (takeChain e l).1 ++ (takeChain e l).2 = l := by
  induction l with
  | nil => intro e; rfl
  | cons r rest ih =>
      intro e
      obtain ⟨o, s⟩ := r
      rw [takeChain]
      split
      · simpa using ih (o + s)
      · rfl

theorem takeChain_chained (l : List (Nat × Nat)) :
    ∀ e, contiguousFrom e (takeChain e l).1 = true := by
  induction l with
  | nil => intro e; rfl
  | cons r rest ih =>
      intro e
      obtain ⟨o, s⟩ := r
      rw [takeChain]
      split
      · next heq =>
          subst heq
          simpa [contiguousFrom] using ih (o + s)
      · rfl

theorem takeChain_snd_length (l : List (Nat × Nat)) :
    ∀ e, (takeChain e l).2.length ≤ l.length := by
  induction l with
  | nil => intro e; simp [takeChain]
  | cons r rest ih =>
      intro e
      obtain ⟨o, s⟩ := r
      rw [takeChain]
      split
      · have := ih (o + s)
        simp only [List.length_cons]
        omega
      · simp

theorem takeChain_snd_mem (l : List (Nat × Nat)) :
    ∀ e, ∀ p ∈ (takeChain e l).2, p ∈ l := by
  induction l with
  | nil => intro e p hp; simpa [takeChain] using hp
  | cons r rest ih =>
      intro e p hp
      obtain ⟨o, s⟩ := r
      rw [takeChain] at hp
      split at hp
      · exact List.mem_cons_of_mem _ (ih (o + s) p hp)
      · exact hp

theorem takeChain_stop (l : List (Nat × Nat)) :
    ∀ e o2 s2 r2, (takeChain e l).2 = (o2, s2) :: r2 →
    o2 ≠ e + sumSizes (takeChain e l).1 := by
  induction l with
  | nil => intro e o2 s2 r2 h; simp [takeChain] at h
  | cons r rest ih =>
      intro e o2 s2 r2 h
      obtain ⟨o, s⟩ := r
      rw [takeChain] at h ⊢
      split at h
      · next heq =>
          rw [if_pos heq]
          have := ih (o + s) o2 s2 r2 h
          subst heq
          simp only [sumSizes, List.map_cons, List.sum_cons]
          simp only [sumSizes] at this
          omega
      · next hne =>
          rw [if_neg hne]
          simp only [List.cons.injEq, Prod.mk.injEq] at h
          obtain ⟨⟨rfl, _⟩, _⟩ := h
          simpa [sumSizes] using hne

theorem coEnd_eq_takeChain (l : List (Nat × Nat)) :
    ∀ e, coEnd e l = e + sumSizes (takeChain e l).1 := by
  induction l with
  | nil => intro e; simp [coEnd, takeChain, sumSizes]
  | cons r rest ih =>
      intro e
      obtain ⟨o, s⟩ := r
      rw [coEnd, takeChain]
      by_cases heq : o = e
      · subst heq
        rw [if_pos rfl, if_pos rfl]
        have := ih (o + s)
        simp only [sumSizes, List.map_cons, List.sum_cons] at *
        omega
      · rw [if_neg (fun he => heq he.symm), if_neg heq]
        simp [sumSizes]

theorem serveRun_cons_brk (stream : Bytes) (e o s : Nat) (rest : List (Nat × Nat))
    (h : o + s = e) :
    serveRun stream e ((o, s) :: rest) = ([stream.take s], rest) := by
  rw [serveRun]
  simp [h]

theorem serveRun_cons_step (stream : Bytes) (e o s : Nat) (rest : List (Nat × Nat))
    (h : o + s ≠ e) :
    serveRun stream e ((o, s) :: rest) =
      (stream.take s :: (serveRun (stream.drop s) e rest).1,
       (serveRun (stream.drop s) e rest).2) := by
  rw [serveRun]
  simp [h]

theorem serveRun_rem_eq_takeChain :
    ∀ (rest : List (Nat × Nat)) (o s : Nat) (stream : Bytes),
    (∀ p ∈ rest, 0 < p.2) →
    (serveRun stream (coEnd (o + s) rest) ((o, s) :: rest)).2 =
      (takeChain (o + s) rest).2 := by
  intro rest
  induction rest with
  | nil =>
      intro o s stream _
      rw [show coEnd (o + s) [] = o + s from rfl,
        serveRun_cons_brk stream (o + s) o s [] rfl]
      rfl
  | cons r2 rr ih =>
      intro o s stream hpos
      obtain ⟨o2, s2⟩ := r2
      by_cases hadj : o2 = o + s
      · subst hadj
        have hco : coEnd (o + s) ((o + s, s2) :: rr) = coEnd (o + s + s2) rr := by
          simp [coEnd]
        have hs2 : 0 < s2 := hpos (o + s, s2) (by simp)
        have hgt : o + s ≠ coEnd (o + s + s2) rr := by
          have := coEnd_ge rr (o + s + s2)
          omega
        rw [hco, serveRun_cons_step stream _ o s _ hgt]
        have hthis := ih (o + s) s2 (stream.drop s)
          (fun p hp => hpos p (List.mem_cons_of_mem _ hp))
        dsimp only
        rw [hthis, takeChain, if_pos rfl]
      · have hne : ¬ (o + s = o2) := fun h => hadj h.symm
        have hco : coEnd (o + s) ((o2, s2) :: rr) = o + s := by
          simp [coEnd, hne]
        rw [hco, serveRun_cons_brk stream (o + s) o s _ rfl, takeChain,
          if_neg hadj]

/-- The maximal exactly-adjacent runs of a range list, in order. -/
def adjacentRuns (ranges : List (Nat × Nat)) : List (List (Nat × Nat)) :=
  match ranges with
  | [] => []
  | (o, s) :: rest =>
      ((o, s) :: (takeChain (o + s) rest).1) ::
        adjacentRuns (takeChain (o + s) rest).2
termination_by ranges.length
decreasing_by
  have := takeChain_snd_length rest (o + s)
  simp only [List.length_cons]
  omega

theorem rf_requests_aux (content : Bytes) :
    ∀ (n : Nat) (ranges : List (Nat × Nat)), ranges.length ≤ n →
    (∀ p ∈ ranges, 0 < p.2) →
    (rfLoop content ranges).2 = (adjacentRuns ranges).map
      (fun run => ((run.headD (0, 0)).1, sumSizes run)) := by
  intro n
  induction n with
  | zero =>
      intro ranges h _
      have hr : ranges = [] := List.eq_nil_of_length_eq_zero (by omega)
      subst hr
      rw [rfLoop_nil, adjacentRuns]
      rfl
  | succ n ih =>
      intro ranges h hpos
      rcases ranges with _ | ⟨⟨o, s⟩, rest⟩
      · rw [rfLoop_nil, adjacentRuns]
        rfl
      · have hposr : ∀ p ∈ rest, 0 < p.2 :=
          fun p hp => hpos p (List.mem_cons_of_mem _ hp)
        have hrem := serveRun_rem_eq_takeChain rest o s
          (sliceL content o (coEnd (o + s) rest - o)) hposr
        rw [rfLoop_cons, adjacentRuns]
        simp only [hrem, List.map_cons]
        have hlen : (takeChain (o + s) rest).2.length ≤ n := by
          have := takeChain_snd_length rest (o + s)
          simp only [List.length_cons] at h
          omega
        have hposrem : ∀ p ∈ (takeChain (o + s) rest).2, 0 < p.2 :=
          fun p hp => hposr p (takeChain_snd_mem rest (o + s) p hp)
        rw [ih _ hlen hposrem]
        have hreq : coEnd (o + s) rest - o =
            sumSizes ((o, s) :: (takeChain (o + s) rest).1) := by
          have := coEnd_eq_takeChain rest (o + s)
          simp only [sumSizes, List.map_cons, List.sum_cons]
          simp only [sumSizes] at this
          omega
        rw [hreq]
        rfl

/-- C5: `retrieve_file_ranges` yields one byte string per input range, in
input order, each equal to the object's bytes at `[offset, offset + size)` —
the same sequence as separate `retrieve_file_range` calls — and, for
positive sizes, it issues exactly one coalesced ranged request per maximal
run of exactly-adjacent ranges (the runs concatenate back to the input, each
run is exactly-adjacent, and each run boundary breaks adjacency). -/
theorem retrieve_file_ranges_spec (content : Bytes) (ranges : List (Nat × Nat))
    (hne : ranges ≠ []) (hbound : ∀ r ∈ ranges, r.1 + r.2 ≤ content.length)
    (hpos : ∀ r ∈ ranges, 0 < r.2) :
    retrieve_file_ranges content ranges =
      ranges.map (fun r => retrieve_file_range content r.1 r.2) ∧
    (∀ r ∈ ranges, (retrieve_file_range content r.1 r.2).length = r.2) ∧
    (rfLoop content ranges).2 = (adjacentRuns ranges).map
      (fun run => ((run.headD (0, 0)).1, sumSizes run)) ∧
    (adjacentRuns ranges).flatten = ranges ∧
    (∀ run ∈ adjacentRuns ranges, run ≠ [] ∧
      contiguousFrom ((run.headD (0, 0)).1) run = true) := by
  have hflat : ∀ (n : Nat) (l : List (Nat × Nat)), l.length ≤ n →
      (adjacentRuns l).flatten = l := by
    intro n
    induction n with
    | zero =>
        intro l h
        have : l = [] := List.eq_nil_of_length_eq_zero (by omega)
        subst this
        rw [adjacentRuns]
        rfl
    | succ n ih =>
        intro l h
        rcases l with _ | ⟨⟨o, s⟩, rest⟩
        · rw [adjacentRuns]; rfl
        · rw [adjacentRuns]
          have hlen : (takeChain (o + s) rest).2.length ≤ n := by
            have := takeChain_snd_length rest (o + s)
            simp only [List.length_cons] at h
            omega
          simp only [List.flatten_cons, ih _ hlen]
          have := takeChain_append rest (o + s)
          simp only [List.cons_append, this]
  have hruns : ∀ (n : Nat) (l : List (Nat × Nat)), l.length ≤ n →
      ∀ run ∈ adjacentRuns l, run ≠ [] ∧
        contiguousFrom ((run.headD (0, 0)).1) run = true := by
    intro n
    induction n with
    | zero =>
        intro l h run hrun
        have : l = [] := List.eq_nil_of_length_eq_zero (by omega)
        subst this
        rw [adjacentRuns] at hrun
        exact absurd hrun (by simp)
    | succ n ih =>
        intro l h run hrun
        rcases l with _ | ⟨⟨o, s⟩, rest⟩
        · rw [adjacentRuns] at hrun
          exact absurd hrun (by simp)
        · rw [adjacentRuns] at hrun
          rcases List.mem_cons.mp hrun with rfl | hrun
          · refine ⟨by simp, ?_⟩
            simp only [List.headD_cons, contiguousFrom, Bool.and_eq_true,
              decide_eq_true_eq]
            exact ⟨by trivial, takeChain_chained rest (o + s)⟩
          · have hlen : (takeChain (o + s) rest).2.length ≤ n := by
              have := takeChain_snd_length rest (o + s)
              simp only [List.length_cons] at h
              omega
            exact ih _ hlen run hrun
  refine ⟨retrieve_file_ranges_eq content ranges, ?_,
    rf_requests_aux content ranges.length ranges (le_refl _) hpos,
    hflat ranges.length ranges (le_refl _),
    hruns ranges.length ranges (le_refl _)⟩
  intro r hr
  have := hbound r hr
  simp only [retrieve_file_range, sliceL, List.length_take, List.length_drop]
  omega

/-- Witness for C5 at a concrete object and ranges: two adjacent runs
(`[0,3) [3,2)` coalesced, then `[7,2)`). -/
theorem retrieve_file_ranges_spec_witness :
    (([(0, 3), (3, 2), (7, 2)] : List (Nat × Nat)) ≠ [] ∧
      (∀ r ∈ ([(0, 3), (3, 2), (7, 2)] : List (Nat × Nat)),
        r.1 + r.2 ≤ ([10, 11, 12, 13, 14, 15, 16, 17, 18] : Bytes).length) ∧
      (∀ r ∈ ([(0, 3), (3, 2), (7, 2)] : List (Nat × Nat)), 0 < r.2)) ∧
    (retrieve_file_ranges [10, 11, 12, 13, 14, 15, 16, 17, 18]
        [(0, 3), (3, 2), (7, 2)] =
      ([(0, 3), (3, 2), (7, 2)] : List (Nat × Nat)).map
        (fun r => retrieve_file_range [10, 11, 12, 13, 14, 15, 16, 17, 18] r.1 r.2) ∧
      (∀ r ∈ ([(0, 3), (3, 2), (7, 2)] : List (Nat × Nat)),
        (retrieve_file_range [10, 11, 12, 13, 14, 15, 16, 17, 18] r.1 r.2).length = r.2) ∧
      (rfLoop [10, 11, 12, 13, 14, 15, 16, 17, 18] [(0, 3), (3, 2), (7, 2)]).2 =
        (adjacentRuns [(0, 3), (3, 2), (7, 2)]).map
          (fun run => ((run.headD (0, 0)).1, sumSizes run)) ∧
      (adjacentRuns [(0, 3), (3, 2), (7, 2)]).flatten = [(0, 3), (3, 2), (7, 2)] ∧
      (∀ run ∈ adjacentRuns [(0, 3), (3, 2), (7, 2)], run ≠ [] ∧
        contiguousFrom ((run.headD (0, 0)).1) run = true)) :=
  ⟨⟨by decide, by decide, by decide⟩,
   retrieve_file_ranges_spec [10, 11, 12, 13, 14, 15, 16, 17, 18]
     [(0, 3), (3, 2), (7, 2)] (by decide) (by decide) (by decide)⟩

/-! ## Restore (`restore_from_data_file` and `write_restore_block` in
`baq/restore.py`)

The local tree is a partial map from restore path to file contents (`none`
models `FileNotFoundError` on open).  Writes of distinct blocks of one file
land in disjoint ranges (C2), so the 8-worker write pool is modelled by
applying the writes in task order. -/

/-- The scan pre-check of `restore_from_data_file`: open the destination,
seek to the block offset, read the block size; the block counts as already
restored exactly when some data was read and its SHA3-512 digest equals the
recorded one.  A missing file (`FileNotFoundError`) or an empty read leaves
the block to be restored. -/
def scan_precheck (C : Crypto) (dest : Option Bytes) (m : FileBlockM) : Bool :=
  match dest with
  | none => false
  | some content =>
      let file_data := sliceL content m.offset m.size
      !file_data.isEmpty && decide (C.sha3 file_data = m.sha3)

/-- The blocks that survive the scan and will be fetched and written. -/
def filteredBlocks (C : Crypto) (fs : String → Option Bytes)
    (restore_blocks : List (String × FileBlockM)) : List (String × FileBlockM) :=
  restore_blocks.filter (fun pm => !scan_precheck C (fs pm.1) pm.2)

/-- Contents seen by `write_restore_block` when opening the destination:
`r+b` on an existing file, else exclusive create of an empty one. -/
def openOrCreate (dest : Option Bytes) : Bytes :=
  match dest with
  | none => []
  | some content => content

/-- Overwrite `content` at `off` with `new`, zero-filling any gap beyond the
current end of file (POSIX seek-past-end semantics). -/
def writeAt (content : Bytes) (off : Nat) (new : Bytes) : Bytes :=
  content.take off ++ List.replicate (off - content.length) 0 ++ new ++
    content.drop (off + new.length)

/-- Model of `write_restore_block`: decrypt with the record's key,
zstd-decompress, verify the SHA3-512 digest (fatal on mismatch), and write
the decoded bytes at the block's offset in the destination file. -/
def write_restore_block (C : Crypto) (fs : String → Option Bytes)
    (p : String) (m : FileBlockM) (encrypted_data : Bytes) :
    Except String (String → Option Bytes) :=
  let compressed_data := decrypt_aes C m.aes_key encrypted_data
  let original_data := C.decompress compressed_data
  if C.sha3 original_data = m.sha3 then
    Except.ok (fun q => if q = p
      then some (writeAt (openOrCreate (fs p)) m.offset original_data)
      else fs q)
  else Except.error "AssertionError: sha3 mismatch after decode"

/-- Apply the write tasks in order. -/
def writeAll (C : Crypto) (fs : String → Option Bytes) :
    List ((String × FileBlockM) × Bytes) → Except String (String → Option Bytes)
  | [] => Except.ok fs
  | (pm, data) :: rest =>
      match write_restore_block C fs pm.1 pm.2 data with
      | Except.error e => Except.error e
      | Except.ok fs2 => writeAll C fs2 rest

/-- Model of `restore_from_data_file` for one store file with contents
`remote`: scan every block, and unless nothing is left, fetch the
`(store_offset, store_size)` ranges of the surviving blocks in one
`retrieve_file_ranges` call and write each fetched block. -/
def restore_from_data_file (C : Crypto) (fs : String → Option Bytes)
    (remote : Bytes) (restore_blocks : List (String × FileBlockM)) :
    Except String (String → Option Bytes) :=
  let filtered := filteredBlocks C fs restore_blocks
  if filtered.isEmpty then Except.ok fs
  else
    let ranges := filtered.map (fun pm => (pm.2.store_offset, pm.2.store_size))
    let datas := retrieve_file_ranges remote ranges
    writeAll C fs (filtered.zip datas)

/-- C6: a block is excluded from fetching and writing iff the scan pre-check
succeeds — the destination opens, the read at `[offset, offset + size)` is
non-empty and its SHA3-512 digest equals the recorded `sha3`.  A missing
destination or an empty read keeps the block; a short read also keeps it
when the digest function is collision-free on it.  When every block passes
the pre-check (a second run over an already-restored tree), nothing is
fetched or written and the tree is returned unchanged. -/
theorem restore_scan_spec (C : Crypto) (fs : String → Option Bytes)
    (remote : Bytes) (restore_blocks : List (String × FileBlockM)) :
    (∀ pm, pm ∈ filteredBlocks C fs restore_blocks ↔
      pm ∈ restore_blocks ∧ ¬ (∃ content, fs pm.1 = some content ∧
        sliceL content pm.2.offset pm.2.size ≠ [] ∧
        C.sha3 (sliceL content pm.2.offset pm.2.size) = pm.2.sha3)) ∧
    (∀ pm ∈ restore_blocks, fs pm.1 = none →
      pm ∈ filteredBlocks C fs restore_blocks) ∧
    (∀ pm ∈ restore_blocks, ∀ content, fs pm.1 = some content →
      sliceL content pm.2.offset pm.2.size = [] →
      pm ∈ filteredBlocks C fs restore_blocks) ∧
    (∀ pm ∈ restore_blocks, ∀ content raw, fs pm.1 = some content →
      pm.2.sha3 = C.sha3 raw → raw.length = pm.2.size →
      (sliceL content pm.2.offset pm.2.size).length < pm.2.size →
      (∀ b1 b2, C.sha3 b1 = C.sha3 b2 → b1 = b2) →
      pm ∈ filteredBlocks C fs restore_blocks) ∧
    ((∀ pm ∈ restore_blocks, ∃ content, fs pm.1 = some content ∧
        sliceL content pm.2.offset pm.2.size ≠ [] ∧
        C.sha3 (sliceL content pm.2.offset pm.2.size) = pm.2.sha3) →
      restore_from_data_file C fs remote restore_blocks = Except.ok fs) := by
  have hpos : ∀ pm : String × FileBlockM,
      scan_precheck C (fs pm.1) pm.2 = true ↔
      (∃ content, fs pm.1 = some content ∧
        sliceL content pm.2.offset pm.2.size ≠ [] ∧
        C.sha3 (sliceL content pm.2.offset pm.2.size) = pm.2.sha3) := by
    intro pm
    cases hfs : fs pm.1 with
    | none => simp [scan_precheck]
    | some content =>
        simp only [scan_precheck, Bool.and_eq_true, Bool.not_eq_true',
          decide_eq_true_eq]
        constructor
        · rintro ⟨hne, hsha⟩
          refine ⟨content, rfl, ?_, hsha⟩
          intro he
          rw [he] at hne
          simp at hne
        · rintro ⟨c2, hc2, hne, hsha⟩
          have hceq : content = c2 := by injection hc2
          subst hceq
          refine ⟨?_, hsha⟩
          rw [List.isEmpty_eq_false_iff_exists_mem]
          rcases hne2 : sliceL content pm.2.offset pm.2.size with _ | ⟨b, rest⟩
          · exact absurd hne2 hne
          · exact ⟨b, by simp⟩
  have hneg : ∀ pm : String × FileBlockM,
      (!scan_precheck C (fs pm.1) pm.2) = true ↔
      ¬ (∃ content, fs pm.1 = some content ∧
        sliceL content pm.2.offset pm.2.size ≠ [] ∧
        C.sha3 (sliceL content pm.2.offset pm.2.size) = pm.2.sha3) := by
    intro pm
    constructor
    · intro h hex
      have := (hpos pm).mpr hex
      rw [this] at h
      simp at h
    · intro h
      by_cases hb : scan_precheck C (fs pm.1) pm.2 = true
      · exact absurd ((hpos pm).mp hb) h
      · simp only [Bool.not_eq_true] at hb
        rw [hb]
        rfl
  refine ⟨?_, ?_, ?_, ?_, ?_⟩
  · intro pm
    rw [filteredBlocks, List.mem_filter, hneg pm]
  · intro pm hpm hnone
    rw [filteredBlocks, List.mem_filter, hneg pm]
    refine ⟨hpm, ?_⟩
    rintro ⟨content, hc, _, _⟩
    rw [hnone] at hc
    exact Option.noConfusion hc
  · intro pm hpm content hc hempty
    rw [filteredBlocks, List.mem_filter, hneg pm]
    refine ⟨hpm, ?_⟩
    rintro ⟨c2, hc2, hne, _⟩
    rw [hc] at hc2
    have hceq : content = c2 := by injection hc2
    subst hceq
    exact hne hempty
  · intro pm hpm content raw hc hsha hlen hshort hinj
    rw [filteredBlocks, List.mem_filter, hneg pm]
    refine ⟨hpm, ?_⟩
    rintro ⟨c2, hc2, _, hdig⟩
    rw [hc] at hc2
    have hceq : content = c2 := by injection hc2
    subst hceq
    rw [hsha] at hdig
    have := hinj _ _ hdig
    rw [this] at hshort
    omega
  · intro hall
    have hempty : filteredBlocks C fs restore_blocks = [] := by
      rw [filteredBlocks, List.filter_eq_nil_iff]
      intro pm hpm
      have := (hpos pm).mpr (hall pm hpm)
      simp [this]
    rw [restore_from_data_file]
    simp only [hempty, List.isEmpty_nil, if_true]

/-- Concrete already-restored tree for the C6 witness: one file whose block
slice hashes correctly under `toyCrypto`. -/
def wFs : String → Option Bytes := fun p => if p = "f" then some [1, 2, 3, 4] else none

/-- The block of that file: offset 0, size 4, `toyCrypto.sha3 [1,2,3,4]`. -/
def wBlock : FileBlockM := ⟨0, 4, [10, 4], [7], 0, 0, 2⟩

/-- Witness for C6: on a tree whose single block already matches, the
pre-check succeeds and the restore run returns the tree unchanged. -/
theorem restore_scan_spec_witness :
    (∀ pm ∈ [("f", wBlock)], ∃ content, wFs pm.1 = some content ∧
      sliceL content pm.2.offset pm.2.size ≠ [] ∧
      toyCrypto.sha3 (sliceL content pm.2.offset pm.2.size) = pm.2.sha3) ∧
    restore_from_data_file toyCrypto wFs [9, 9] [("f", wBlock)] = Except.ok wFs := by
  have hall : ∀ pm ∈ [("f", wBlock)], ∃ content, wFs pm.1 = some content ∧
      sliceL content pm.2.offset pm.2.size ≠ [] ∧
      toyCrypto.sha3 (sliceL content pm.2.offset pm.2.size) = pm.2.sha3 := by
    intro pm hpm
    have hpm2 : pm = ("f", wBlock) := List.mem_singleton.mp hpm
    subst hpm2
    exact ⟨[1, 2, 3, 4], rfl, by decide, by decide⟩
  exact ⟨hall,
    (restore_scan_spec toyCrypto wFs [9, 9] [("f", wBlock)]).2.2.2.2 hall⟩

/-! ## Manifest readers

Two readers coexist in the source: `BackupMetaReader` in
`baq/helpers/metadata_file.py` (sets `contains_only_single_file`, parses
directory records from the record dict `d`) and `BackupMetaReader` in
`baq/backup.py` (the one `baq/restore.py` imports), whose directory branch
reads `f['st_mtime_ns']` where `f` is the gzip file handle — a `TypeError`
on the first directory record (or a `NameError` after a `file` record,
whose dict is deleted) — and which never sets `contains_only_single_file`.
Parsing is modelled on the record list; gzip and JSON line codecs are
transparent. -/

/-- `default_block_size` from `baq/util.py` with `BAQ_BLOCK_SIZE` unset. -/
def default_block_size : Nat := 128 * 1024

/-- One parsed file of the manifest: its `FileBlock` list, stat fields and
`file_summary` data. -/
structure FileP where
  blocks : List FileBlockM
  stat : StatM
  original_size : Nat
  original_sha1 : Bytes
deriving Repr, DecidableEq

/-- The inner loop of the readers: consume `file_data` records until the
`file_summary`; any other record kind (or end of stream) is an error. -/
def takeFileData : List Rec → Except String (List FileBlockM × (Nat × Bytes) × List Rec)
  | [] => Except.error "StopIteration"
  | Rec.file_data m :: rest =>
      match takeFileData rest with
      | Except.error e => Except.error e
      | Except.ok (blocks, summary, rem) => Except.ok (m :: blocks, summary, rem)
  | Rec.file_summary size sha1 :: rest => Except.ok ([], (size, sha1), rest)
  | _ => Except.error "Unknown file record"

theorem takeFileData_rem_lt :
    ∀ (recs : List Rec) (b : List FileBlockM) (s : Nat × Bytes) (rem : List Rec),
    takeFileData recs = Except.ok (b, s, rem) → rem.length < recs.length := by
  intro recs
  induction recs with
  | nil => intro b s rem h; exact absurd h (by simp [takeFileData])
  | cons r rest ih =>
      intro b s rem h
      cases r with
      | file_data m =>
          rw [takeFileData] at h
          cases hr : takeFileData rest with
          | error e => rw [hr] at h; exact absurd h (by simp)
          | ok v =>
              obtain ⟨b2, s2, rem2⟩ := v
              rw [hr] at h
              simp only [Except.ok.injEq, Prod.mk.injEq] at h
              obtain ⟨_, _, hrem⟩ := h
              subst hrem
              have := ih b2 s2 rem2 hr
              simp only [List.length_cons]
              omega
      | file_summary size sha1 =>
          rw [takeFileData] at h
          simp only [Except.ok.injEq, Prod.mk.injEq] at h
          obtain ⟨_, _, hrem⟩ := h
          subst hrem
          simp
      | header f => exact absurd h (by simp [takeFileData])
      | directory p st => exact absurd h (by simp [takeFileData])
      | file p st => exact absurd h (by simp [takeFileData])

/-- Consuming the records `backup_file_contents` wrote gives back exactly its
`file_data` list and `file_summary`, leaving the following records. -/
theorem takeFileData_of_shape (ms : List FileBlockM) (size : Nat) (sha1 : Bytes) :
    ∀ (rest : List Rec),
    takeFileData (ms.map Rec.file_data ++ Rec.file_summary size sha1 :: rest) =
      Except.ok (ms, (size, sha1), rest) := by
  induction ms with
  | nil => intro rest; rfl
  | cons m ms ih =>
      intro rest
      rw [List.map_cons, List.cons_append, takeFileData, ih rest]

/-- The record loop of `BackupMetaReader.__init__` in
`baq/helpers/metadata_file.py`: `directory` and `file` records at top level,
each `file` followed by its `file_data` stream and `file_summary`; any other
record is `Unknown record`. -/
def parseItems : List Rec → Except String (List (String × StatM) × List (String × FileP))
  | [] => Except.ok ([], [])
  | Rec.directory p st :: rest =>
      match parseItems rest with
      | Except.error e => Except.error e
      | Except.ok (ds, fs) => Except.ok ((p, st) :: ds, fs)
  | Rec.file p st :: rest =>
      match hf : takeFileData rest with
      | Except.error e => Except.error e
      | Except.ok (blocks, summary, rem) =>
          match parseItems rem with
          | Except.error e => Except.error e
          | Except.ok (ds, fs) =>
              Except.ok (ds, (p, ⟨blocks, st, summary.1, summary.2⟩) :: fs)
  | _ => Except.error "Unknown record"
termination_by recs => recs.length
decreasing_by
  · simp only [List.length_cons]
    omega
  · have := takeFileData_rem_lt rest blocks summary rem hf
    simp only [List.length_cons]
    omega

/-- Result of the `metadata_file.py` reader. -/
structure MetaH where
  block_size : Nat
  directories : List (String × StatM)
  files : List (String × FileP)
  contains_only_single_file : Bool
deriving Repr, DecidableEq

/-- Model of `BackupMetaReader.__init__` from `baq/helpers/metadata_file.py`:
the first record must be the `baq_backup` header with `format_version` 1;
`block_size` defaults to `default_block_size` when absent; after parsing all
records, `contains_only_single_file` is set iff no directory was read and
exactly one file was. -/
def BackupMetaReader_helpers (recs : List Rec) : Except String MetaH :=
  match recs with
  | Rec.header fields :: rest =>
      if fields.lookup "format_version" = some (JVal.jnum 1) then
        match fields.lookup "block_size" with
        | some (JVal.jnum bs) =>
            match parseItems rest with
            | Except.error e => Except.error e
            | Except.ok (ds, fs) =>
                Except.ok ⟨bs, ds, fs, ds.isEmpty && fs.length == 1⟩
        | none =>
            match parseItems rest with
            | Except.error e => Except.error e
            | Except.ok (ds, fs) =>
                Except.ok ⟨default_block_size, ds, fs, ds.isEmpty && fs.length == 1⟩
        | some _ => Except.error "AssertionError: block_size is not an int"
      else Except.error "AssertionError: format_version"
  | _ => Except.error "KeyError: baq_backup"

/-- The record loop of `BackupMetaReader.__init__` in `baq/backup.py` (the
class `baq/restore.py` imports): identical except that its directory branch
evaluates `f['st_mtime_ns']` with `f` bound to the gzip stream (or deleted),
raising on the first directory record. -/
def parseItemsBackupPy : List Rec → Except String (List (String × StatM) × List (String × FileP))
  | [] => Except.ok ([], [])
  | Rec.directory _ _ :: _ =>
      Except.error "TypeError: f is the gzip stream, not the directory dict"
  | Rec.file p st :: rest =>
      match hf : takeFileData rest with
      | Except.error e => Except.error e
      | Except.ok (blocks, summary, rem) =>
          match parseItemsBackupPy rem with
          | Except.error e => Except.error e
          | Except.ok (ds, fs) =>
              Except.ok (ds, (p, ⟨blocks, st, summary.1, summary.2⟩) :: fs)
  | _ => Except.error "Unknown record"
termination_by recs => recs.length
decreasing_by
  have := takeFileData_rem_lt rest blocks summary rem hf
  simp only [List.length_cons]
  omega

/-- Result of the `backup.py` reader: it has no
`contains_only_single_file` attribute. -/
structure MetaB where
  block_size : Nat
  directories : List (String × StatM)
  files : List (String × FileP)
deriving Repr, DecidableEq

/-- Model of `BackupMetaReader.__init__` from `baq/backup.py`. -/
def BackupMetaReader_backup (recs : List Rec) : Except String MetaB :=
  match recs with
  | Rec.header fields :: rest =>
      if fields.lookup "format_version" = some (JVal.jnum 1) then
        match fields.lookup "block_size" with
        | some (JVal.jnum bs) =>
            match parseItemsBackupPy rest with
            | Except.error e => Except.error e
            | Except.ok (ds, fs) => Except.ok ⟨bs, ds, fs⟩
        | none =>
            match parseItemsBackupPy rest with
            | Except.error e => Except.error e
            | Except.ok (ds, fs) => Except.ok ⟨default_block_size, ds, fs⟩
        | some _ => Except.error "AssertionError: block_size is not an int"
      else Except.error "AssertionError: format_version"
  | _ => Except.error "KeyError: baq_backup"

/-- Model of `do_restore` from `baq/restore.py`: after downloading and
GPG-decrypting the manifest it builds `BackupMetaReader` (the `backup.py`
class) and immediately evaluates `meta.contains_only_single_file` (line 43),
an attribute that class never sets — an `AttributeError` on every input, so
no line after it is reachable. -/
def do_restore (recs : List Rec) : Except String Unit :=
  match BackupMetaReader_backup recs with
  | Except.error e => Except.error e
  | Except.ok _ => Except.error
      "AttributeError: BackupMetaReader object has no attribute contains_only_single_file"

/-- C1: `restore(backup(T)) == T` fails for every tree `T` — the cited
`do_restore` raises before restoring anything: its `BackupMetaReader` (the
`backup.py` class) crashes on the first `directory` record, and even when
parsing succeeds, line 43 reads the non-existent attribute
`contains_only_single_file`.  Evaluated at a concrete tree containing a
directory. -/
theorem parseItemsBackupPy_dir (p : String) (st : StatM) (rest : List Rec) :
    parseItemsBackupPy (Rec.directory p st :: rest) =
      Except.error "TypeError: f is the gzip stream, not the directory dict" := by
  rw [parseItemsBackupPy]

theorem do_restore_roundtrip_bug :
    (∀ recs : List Rec, ∃ msg, do_restore recs = Except.error msg) ∧
    do_restore (do_backup toyCrypto toyPrev 4 toyKeys toyTree).1 =
      Except.error "TypeError: f is the gzip stream, not the directory dict" := by
  constructor
  · intro recs
    rw [do_restore]
    cases h : BackupMetaReader_backup recs with
    | error e => exact ⟨e, rfl⟩
    | ok v => exact ⟨_, rfl⟩
  · have hman : (do_backup toyCrypto toyPrev 4 toyKeys toyTree).1 =
        Rec.header (headerJsonFields 4) :: Rec.directory "d" ⟨1, 2, 488, 0, 0⟩ ::
          (backupEntries toyCrypto toyPrev 4 toyKeys
            [FsEntry.file "d/a.txt" ⟨3, 4, 420, 0, 0⟩ [9, 8, 7, 6, 5],
             FsEntry.file "d/b.txt" ⟨5, 6, 420, 0, 0⟩ [9, 8, 7, 6, 5]] 0 backupInit).1 := rfl
    have hparse : BackupMetaReader_backup (do_backup toyCrypto toyPrev 4 toyKeys toyTree).1 =
        Except.error "TypeError: f is the gzip stream, not the directory dict" := by
      rw [hman, BackupMetaReader_backup]
      rw [if_pos (show (headerJsonFields 4).lookup "format_version" =
        some (JVal.jnum 1) from rfl)]
      rw [show (headerJsonFields 4).lookup "block_size" = some (JVal.jnum 4) from rfl]
      rw [parseItemsBackupPy_dir]
    rw [do_restore, hparse]

/-! ## The manifest header (C7) -/

/-- Paths of the directory entries of a tree, in order. -/
def treeDirPaths (tree : List FsEntry) : List String :=
  tree.filterMap fun e =>
    match e with
    | FsEntry.dir p _ => some p
    | _ => none

/-- Paths of the regular-file entries of a tree, in order. -/
def treeFilePaths (tree : List FsEntry) : List String :=
  tree.filterMap fun e =>
    match e with
    | FsEntry.file p _ _ => some p
    | _ => none

theorem processBlocks_shape (C : Crypto) (prev : Bytes → Option FileBlockM)
    (key : Bytes) :
    ∀ (chunks : List (Nat × Bytes)) (st : BackupState),
    ∃ ms : List FileBlockM,
      (processBlocks C prev key st chunks).1 = ms.map Rec.file_data := by
  intro chunks
  induction chunks with
  | nil => intro st; exact ⟨[], rfl⟩
  | cons c rest ih =>
      intro st
      obtain ⟨off, raw⟩ := c
      obtain ⟨m, hm, _, _⟩ := processBlock_shape C prev key st off raw
      obtain ⟨ms, hms⟩ := ih (processBlock C prev key st off raw).2
      refine ⟨m :: ms, ?_⟩
      rw [show (processBlocks C prev key st ((off, raw) :: rest)).1 =
        (processBlock C prev key st off raw).1 ::
          (processBlocks C prev key (processBlock C prev key st off raw).2 rest).1
        from rfl, hm, hms]
      rfl

theorem parseItems_dir_ok (p : String) (st : StatM) (rest : List Rec)
    (ds : List (String × StatM)) (fs : List (String × FileP))
    (h2 : parseItems rest = Except.ok (ds, fs)) :
    parseItems (Rec.directory p st :: rest) = Except.ok ((p, st) :: ds, fs) := by
  rw [parseItems, h2]

theorem parseItems_file_ok (p : String) (st : StatM) (rest : List Rec)
    (blocks : List FileBlockM) (sz : Nat) (h : Bytes) (rem : List Rec)
    (ds : List (String × StatM)) (fs : List (String × FileP))
    (h1 : takeFileData rest = Except.ok (blocks, (sz, h), rem))
    (h2 : parseItems rem = Except.ok (ds, fs)) :
    parseItems (Rec.file p st :: rest) =
      Except.ok (ds, (p, ⟨blocks, st, sz, h⟩) :: fs) := by
  rw [parseItems]
  split
  · next heq => rw [h1] at heq; exact absurd heq (by simp)
  · next blocks2 summary2 rem2 heq =>
      rw [h1] at heq
      simp only [Except.ok.injEq, Prod.mk.injEq] at heq
      obtain ⟨hb, hs, hr⟩ := heq
      subst hb hr
      rw [h2]
      obtain ⟨hs1, hs2⟩ : summary2.1 = sz ∧ summary2.2 = h := by
        constructor <;> rw [← hs]
      rw [hs1, hs2]

theorem parse_backupEntries (C : Crypto) (prev : Bytes → Option FileBlockM)
    (bs : Nat) (keys : Nat → Bytes) :
    ∀ (tree : List FsEntry) (i : Nat) (st : BackupState),
    ∃ ds fs, parseItems (backupEntries C prev bs keys tree i st).1 =
        Except.ok (ds, fs) ∧
      ds.map Prod.fst = treeDirPaths tree ∧
      fs.map Prod.fst = treeFilePaths tree := by
  intro tree
  induction tree with
  | nil =>
      intro i st
      exact ⟨[], [], by rw [backupEntries, parseItems], rfl, rfl⟩
  | cons entry rest ih =>
      intro i st
      cases entry with
      | dir p s =>
          obtain ⟨ds, fs, hok, hd, hf⟩ := ih i st
          refine ⟨(p, s) :: ds, fs, ?_, ?_, ?_⟩
          · rw [show (backupEntries C prev bs keys (FsEntry.dir p s :: rest) i st).1 =
              Rec.directory p s :: (backupEntries C prev bs keys rest i st).1 from rfl]
            exact parseItems_dir_ok p s _ ds fs hok
          · simp only [List.map_cons, hd, treeDirPaths, List.filterMap_cons]
          · simp only [hf, treeFilePaths, List.filterMap_cons]
      | file p s content =>
          obtain ⟨ms, hms⟩ := processBlocks_shape C prev (keys i) (chunksFrom bs 0 content) st
          obtain ⟨ds, fs, hok, hd, hf⟩ := ih (i + 1)
            (backup_file_contents C prev bs (keys i) st content).2
          have hshape : (backupEntries C prev bs keys (FsEntry.file p s content :: rest) i st).1 =
              Rec.file p s :: (ms.map Rec.file_data ++
                Rec.file_summary (((chunksFrom bs 0 content).map (fun c => c.2.length)).sum)
                  (C.sha1 ((chunksFrom bs 0 content).map Prod.snd).flatten) ::
                (backupEntries C prev bs keys rest (i + 1)
                  (backup_file_contents C prev bs (keys i) st content).2).1) := by
            rw [show (backupEntries C prev bs keys (FsEntry.file p s content :: rest) i st).1 =
              Rec.file p s :: ((backup_file_contents C prev bs (keys i) st content).1 ++
                (backupEntries C prev bs keys rest (i + 1)
                  (backup_file_contents C prev bs (keys i) st content).2).1) from rfl]
            rw [show (backup_file_contents C prev bs (keys i) st content).1 =
              (processBlocks C prev (keys i) st (chunksFrom bs 0 content)).1 ++
                [Rec.file_summary (((chunksFrom bs 0 content).map (fun c => c.2.length)).sum)
                  (C.sha1 ((chunksFrom bs 0 content).map Prod.snd).flatten)] from rfl]
            rw [hms, List.append_assoc]
            rfl
          refine ⟨ds, (p, ⟨ms, s, ((chunksFrom bs 0 content).map (fun c => c.2.length)).sum,
            C.sha1 ((chunksFrom bs 0 content).map Prod.snd).flatten⟩) :: fs, ?_, ?_, ?_⟩
          · rw [hshape]
            exact parseItems_file_ok p s _ ms _ _ _ ds fs
              (takeFileData_of_shape ms _ _ _) hok
          · simp only [hd, treeDirPaths, List.filterMap_cons]
          · simp only [List.map_cons, hf, treeFilePaths, List.filterMap_cons]

theorem backupEntries_no_header (C : Crypto) (prev : Bytes → Option FileBlockM)
    (bs : Nat) (keys : Nat → Bytes) :
    ∀ (tree : List FsEntry) (i : Nat) (st : BackupState) (f : List (String × JVal)),
    Rec.header f ∉ (backupEntries C prev bs keys tree i st).1 := by
  intro tree
  induction tree with
  | nil => intro i st f h; rw [backupEntries] at h; exact absurd h (by simp)
  | cons entry rest ih =>
      intro i st f h
      cases entry with
      | dir p s =>
          rw [show (backupEntries C prev bs keys (FsEntry.dir p s :: rest) i st).1 =
            Rec.directory p s :: (backupEntries C prev bs keys rest i st).1 from rfl] at h
          rcases List.mem_cons.mp h with h | h
          · exact Rec.noConfusion h
          · exact ih i st f h
      | file p s content =>
          rw [show (backupEntries C prev bs keys (FsEntry.file p s content :: rest) i st).1 =
            Rec.file p s :: ((backup_file_contents C prev bs (keys i) st content).1 ++
              (backupEntries C prev bs keys rest (i + 1)
                (backup_file_contents C prev bs (keys i) st content).2).1) from rfl] at h
          rcases List.mem_cons.mp h with h | h
          · exact Rec.noConfusion h
          · rcases List.mem_append.mp h with h | h
            · rw [show (backup_file_contents C prev bs (keys i) st content).1 =
                (processBlocks C prev (keys i) st (chunksFrom bs 0 content)).1 ++
                  [Rec.file_summary
                    (((chunksFrom bs 0 content).map (fun c => c.2.length)).sum)
                    (C.sha1 ((chunksFrom bs 0 content).map Prod.snd).flatten)]
                from rfl] at h
              rcases List.mem_append.mp h with h | h
              · obtain ⟨m, hm⟩ := processBlocks_all_file_data C prev (keys i) _ st _ h
                exact Rec.noConfusion hm
              · exact Rec.noConfusion (List.mem_singleton.mp h)
            · exact ih (i + 1) _ f h

/-- C7 counterexample: the header record written by `do_backup` carries only
`format_version` and `block_size`; it has no `backup_id` and no
`single_file` field, contradicting the claim. -/
theorem manifest_header_counterexample :
    (do_backup toyCrypto toyPrev 131072 toyKeys toyTree).1.head? =
      some (Rec.header (headerJsonFields 131072)) ∧
    (headerJsonFields 131072).lookup "backup_id" = none ∧
    (headerJsonFields 131072).lookup "single_file" = none := by
  exact ⟨rfl, rfl, rfl⟩

/-- C7 (amended): every manifest begins with exactly one `baq_backup` header
whose fields are exactly `format_version = 1` and `block_size` (no
`backup_id`, no `single_file`), and the metadata reader determines
single-file mode from the parsed manifest structure — no directory records
and exactly one file record — not from a header flag. -/
theorem do_backup_header_spec (C : Crypto) (prev : Bytes → Option FileBlockM)
    (bs : Nat) (keys : Nat → Bytes) (tree : List FsEntry) :
    (do_backup C prev bs keys tree).1 =
      Rec.header (headerJsonFields bs) ::
        (backupEntries C prev bs keys tree 0 backupInit).1 ∧
    (∀ f, Rec.header f ∉ (backupEntries C prev bs keys tree 0 backupInit).1) ∧
    (headerJsonFields bs).lookup "format_version" = some (JVal.jnum 1) ∧
    (headerJsonFields bs).lookup "block_size" = some (JVal.jnum bs) ∧
    (headerJsonFields bs).lookup "backup_id" = none ∧
    (headerJsonFields bs).lookup "single_file" = none ∧
    ∃ mh : MetaH, BackupMetaReader_helpers (do_backup C prev bs keys tree).1 =
        Except.ok mh ∧
      mh.block_size = bs ∧
      mh.directories.map Prod.fst = treeDirPaths tree ∧
      mh.files.map Prod.fst = treeFilePaths tree ∧
      mh.contains_only_single_file =
        ((treeDirPaths tree).isEmpty && (treeFilePaths tree).length == 1) := by
  obtain ⟨ds, fs, hok, hd, hf⟩ := parse_backupEntries C prev bs keys tree 0 backupInit
  refine ⟨rfl, fun f => backupEntries_no_header C prev bs keys tree 0 backupInit f,
    rfl, rfl, rfl, rfl, ?_⟩
  refine ⟨⟨bs, ds, fs, ds.isEmpty && fs.length == 1⟩, ?_, rfl, hd, hf, ?_⟩
  · rw [show (do_backup C prev bs keys tree).1 =
      Rec.header (headerJsonFields bs) ::
        (backupEntries C prev bs keys tree 0 backupInit).1 from rfl]
    rw [BackupMetaReader_helpers]
    rw [if_pos (show (headerJsonFields bs).lookup "format_version" =
      some (JVal.jnum 1) from rfl)]
    rw [show (headerJsonFields bs).lookup "block_size" = some (JVal.jnum bs) from rfl]
    dsimp only
    rw [hok]
  · simp only
    have h1 : ds.isEmpty = (treeDirPaths tree).isEmpty := by
      rw [← hd]
      cases ds <;> rfl
    have h2 : fs.length = (treeFilePaths tree).length := by
      rw [← hf, List.length_map]
    rw [h1, h2]

/-! ## Local dedup cache location (C8)

`do_backup` lines 46-48 compute the cache location consulted at backup
start, and lines 127-133 move the fresh plaintext manifest to the same
`cache_meta_path` on success.  `sha1hex` stands for
`hashlib.sha1(...).hexdigest()`. -/

/-- The string whose SHA-1 names the cache entry:
`f'{local_path.resolve()} {backup_url}'` — the resolved source path, a
space, and the backup URL. -/
def cache_key_string (local_path_resolved backup_url : String) : String :=
  local_path_resolved ++ " " ++ backup_url

/-- `cache_name = hashlib.sha1(f'{local_path.resolve()} {backup_url}'...)`. -/
def cache_name (sha1hex : String → String) (local_path_resolved backup_url : String) :
    String :=
  sha1hex (cache_key_string local_path_resolved backup_url)

/-- `cache_meta_path = Path('~/.cache/baq').expanduser() / cache_name /
'last-meta'`, with `home` the expansion of `~`.  The same path is consulted
at backup start (line 50) and replaced on success (line 133); no
`BAQ_CACHE_DIR` environment variable is consulted anywhere in the source. -/
def cache_meta_path (home : String) (sha1hex : String → String)
    (local_path_resolved backup_url : String) : String :=
  home ++ "/.cache/baq/" ++ cache_name sha1hex local_path_resolved backup_url ++
    "/last-meta"

/-- C8 counterexample: the digested string is not the backup URL alone, and
for an injective digest two different source paths with the same destination
URL get different cache names — the claim that `cache_name` depends on the
destination URL alone is false. -/
theorem cache_name_counterexample :
    cache_key_string "/data/src" "s3://bucket/backups" ≠ "s3://bucket/backups" ∧
    cache_name (fun s => s) "/home/alice/src" "s3://bucket/backups" ≠
      cache_name (fun s => s) "/home/bob/src" "s3://bucket/backups" := by
  constructor <;> decide

/-- C8 (amended): the cache file consulted at backup start and replaced on
success is `<home>/.cache/baq/<cache_name>/last-meta` with
`cache_name = sha1('<resolved source path> <backup URL>')` — the path is
hardcoded relative to the home directory, and for an injective digest,
different source paths map the same destination URL to different cache
entries. -/
theorem cache_meta_path_spec (home : String) (sha1hex : String → String)
    (lp1 lp2 url : String) (hinj : Function.Injective sha1hex) (hne : lp1 ≠ lp2) :
    cache_meta_path home sha1hex lp1 url =
      home ++ "/.cache/baq/" ++ sha1hex (lp1 ++ " " ++ url) ++ "/last-meta" ∧
    cache_meta_path home sha1hex lp1 url ≠ cache_meta_path home sha1hex lp2 url := by
  refine ⟨rfl, ?_⟩
  intro heq
  apply hne
  have hdig : sha1hex (cache_key_string lp1 url) = sha1hex (cache_key_string lp2 url) := by
    have hdata : (cache_meta_path home sha1hex lp1 url).data =
        (cache_meta_path home sha1hex lp2 url).data := by rw [heq]
    simp only [cache_meta_path, cache_name, String.data_append] at hdata
    have h1 := List.append_cancel_right hdata
    have h2 := List.append_cancel_left h1
    exact String.ext h2
  have hkey : cache_key_string lp1 url = cache_key_string lp2 url := hinj hdig
  have hdata2 : (cache_key_string lp1 url).data = (cache_key_string lp2 url).data := by
    rw [hkey]
  simp only [cache_key_string, String.data_append] at hdata2
  have h3 : lp1.data ++ (" ".data ++ url.data) = lp2.data ++ (" ".data ++ url.data) := by
    simpa [List.append_assoc] using hdata2
  exact String.ext (List.append_cancel_right h3)

/-- Witness for C8 at the identity digest and two concrete source paths. -/
theorem cache_meta_path_spec_witness :
    (Function.Injective (fun s : String => s) ∧ ("/a" : String) ≠ "/b") ∧
    (cache_meta_path "/root" (fun s => s) "/a" "s3://b/p" =
      "/root" ++ "/.cache/baq/" ++ ("/a" ++ " " ++ "s3://b/p") ++ "/last-meta" ∧
    cache_meta_path "/root" (fun s => s) "/a" "s3://b/p" ≠
      cache_meta_path "/root" (fun s => s) "/b" "s3://b/p") :=
  ⟨⟨fun _ _ h => h, by decide⟩,
   cache_meta_path_spec "/root" (fun s => s) "/a" "/b" "s3://b/p"
     (fun _ _ h => h) (by decide)⟩

/-! ## Manifest upload storage class (C10)

`S3Backend.upload_file` asserts `self.storage_class` is set but passes the
literal `'STANDARD_IA'` in `ExtraArgs`; only
`S3DataCollectorFile._create_multipart_upload` passes the configured
`self.storage_class`. -/

/-- The `ExtraArgs` of the manifest `upload_file` call. -/
structure UploadExtraArgs where
  acl : String
  storage_class : String
deriving Repr, DecidableEq

/-- Model of `S3Backend.upload_file`: `assert self.storage_class` (an empty
or absent storage class is falsy and raises), then upload with
`ACL='private'` and the literal `StorageClass='STANDARD_IA'`. -/
def upload_file (configured_storage_class : Option String) :
    Except String UploadExtraArgs :=
  match configured_storage_class with
  | none => Except.error "AssertionError: self.storage_class"
  | some s =>
      if s = "" then Except.error "AssertionError: self.storage_class"
      else Except.ok ⟨"private", "STANDARD_IA"⟩

/-- The `StorageClass` passed by
`S3DataCollectorFile._create_multipart_upload` for data files. -/
def create_multipart_storage_class (storage_class : String) : String :=
  storage_class

/-- C10: whatever non-empty storage class `S3Backend` is constructed with,
the manifest upload uses `STANDARD_IA` (with `ACL=private`); the configured
class is only asserted non-falsy, and only the multipart data-file upload
uses it.  With no storage class configured the assert fires. -/
theorem upload_file_storage_class (sc : String) (h : sc ≠ "") :
    upload_file (some sc) = Except.ok ⟨"private", "STANDARD_IA"⟩ ∧
    create_multipart_storage_class sc = sc ∧
    upload_file none = Except.error "AssertionError: self.storage_class" := by
  refine ⟨?_, rfl, rfl⟩
  rw [upload_file, if_neg h]

/-- Witness for C10 at a concrete configured storage class. -/
theorem upload_file_storage_class_witness :
    ("GLACIER" : String) ≠ "" ∧
    (upload_file (some "GLACIER") = Except.ok ⟨"private", "STANDARD_IA"⟩ ∧
    create_multipart_storage_class "GLACIER" = "GLACIER" ∧
    upload_file none = Except.error "AssertionError: self.storage_class") :=
  ⟨by decide, upload_file_storage_class "GLACIER" (by decide)⟩

end Baq
